import Mathlib

/-!
Verification development for the bcoin core serialization, HD-derivation,
partial-merkle-tree and BIP151 encrypted-transport subsystems.

Buffers are modelled as `List Nat` (one entry per byte).  Cryptographic
primitives (SHA-family hashes, HMAC, the ChaCha20 keystream and the
Poly1305 MAC) are external capabilities of the program and are passed to
the embedded functions as explicit function parameters.
-/

set_option maxHeartbeats 1000000
set_option maxRecDepth 4000
set_option linter.unusedVariables false

/-- Little-endian byte encoding of `v` in `w` bytes (values reduced mod 256),
as produced by the Buffer writeUIntLE family. -/
def natLE (w v : Nat) : List Nat :=
  (List.range w).map fun i => (v >>> (8 * i)) % 256

/-- Little-endian byte decoding, as performed by Buffer readUIntLE. -/
def leDecode (bs : List Nat) : Nat :=
  bs.foldr (fun b acc => b + 256 * acc) 0

/-- Big-endian byte decoding, as performed by Buffer readUIntBE. -/
def beDecode (bs : List Nat) : Nat :=
  bs.foldl (fun acc b => acc * 256 + b) 0

/-- Big-endian byte encoding of `v` in `w` bytes, as produced by writeUIntBE. -/
def natBE (w v : Nat) : List Nat :=
  ((List.range w).map fun i => (v >>> (8 * i)) % 256).reverse

/-- Semantics of JS `src.copy(dst, off)`: overwrite `dst` starting at `off`
with as many bytes of `src` as fit; the length of `dst` never changes. -/
def bufWrite (dst : List Nat) (off : Nat) (src : List Nat) : List Nat :=
  dst.take off ++ src.take (dst.length - off) ++ dst.drop (off + src.length)

theorem bufWrite_length (dst : List Nat) (off : Nat) (src : List Nat)
    (h : off + src.length ≤ dst.length) :
    (bufWrite dst off src).length = dst.length := by
  simp only [bufWrite, List.length_append, List.length_take, List.length_drop]
  omega

theorem bufWrite_of_fit (pre suf src : List Nat)
    (h : src.length = suf.length) :
    bufWrite (pre ++ suf) pre.length src = pre ++ src ++ (suf.drop src.length) := by
  simp only [bufWrite, List.length_append]
  rw [List.take_append_of_le_length (le_refl _), List.take_length,
    Nat.add_sub_cancel_left, ← h, List.take_length,
    List.drop_append_eq_append_drop]
  simp

/-!
## BufferReader (lib/utils/reader.js)

The reader wraps an immutable byte buffer, a read offset and a stack of
saved offsets.  Every operation first asserts that enough bytes remain;
assertion failures are modelled with `Except String`.
-/

structure BufferReader where
  data : List Nat
  offset : Nat
  stack : List Nat
deriving Repr, DecidableEq

namespace BufferReader

/-- Construct a reader over `data` (offset 0, empty span stack). -/
def ofData (data : List Nat) : BufferReader := ⟨data, 0, []⟩

/-- Number of bytes left to read. -/
def left (br : BufferReader) : Nat := br.data.length - br.offset

/-- Mark the current starting position (`stack.push(this.offset)`;
the stack is modelled with its top at the head). -/
def start (br : BufferReader) : BufferReader :=
  { br with stack := br.offset :: br.stack }

/-- Read uint8. -/
def readU8 (br : BufferReader) : Except String (Nat × BufferReader) :=
  if br.offset + 1 ≤ br.data.length then
    .ok (br.data.getD br.offset 0, { br with offset := br.offset + 1 })
  else .error "assert: readU8 out of bounds"

/-- Read uint32le. -/
def readU32 (br : BufferReader) : Except String (Nat × BufferReader) :=
  if br.offset + 4 ≤ br.data.length then
    .ok (leDecode ((br.data.drop br.offset).take 4),
      { br with offset := br.offset + 4 })
  else .error "assert: readU32 out of bounds"

/-- Read uint32be. -/
def readU32BE (br : BufferReader) : Except String (Nat × BufferReader) :=
  if br.offset + 4 ≤ br.data.length then
    .ok (beDecode ((br.data.drop br.offset).take 4),
      { br with offset := br.offset + 4 })
  else .error "assert: readU32BE out of bounds"

/-- Read `size` bytes.  The `zeroCopy` flag only controls whether the JS
implementation aliases the source buffer; the bytes returned are the same
either way. -/
def readBytes (br : BufferReader) (size : Nat) (zeroCopy : Bool := false) :
    Except String (List Nat × BufferReader) :=
  if br.offset + size ≤ br.data.length then
    .ok ((br.data.drop br.offset).take size, { br with offset := br.offset + size })
  else .error "assert: readBytes out of bounds"

/-- Read a string of `size` bytes (strings are modelled as byte lists; the
encoding argument of the source only affects the JS string object built
from those bytes). -/
def readString (br : BufferReader) (size : Nat) :
    Except String (List Nat × BufferReader) :=
  if br.offset + size ≤ br.data.length then
    .ok ((br.data.drop br.offset).take size, { br with offset := br.offset + size })
  else .error "assert: readString out of bounds"

/-- Modelled from the spec: `encoding.readVarint` (utils/encoding.js is not
under src/).  Decodes the standard variable-length unsigned integer
(first byte below 0xfd is the value; 0xfd, 0xfe, 0xff announce 2-, 4- and
8-byte little-endian payloads) and reports its consumed byte count. -/
def readVarint (br : BufferReader) : Except String (Nat × BufferReader) :=
  if br.offset + 1 ≤ br.data.length then
    let ch := br.data.getD br.offset 0
    if ch = 0xff then
      if br.offset + 9 ≤ br.data.length then
        .ok (leDecode ((br.data.drop (br.offset + 1)).take 8),
          { br with offset := br.offset + 9 })
      else .error "assert: readVarint out of bounds"
    else if ch = 0xfe then
      if br.offset + 5 ≤ br.data.length then
        .ok (leDecode ((br.data.drop (br.offset + 1)).take 4),
          { br with offset := br.offset + 5 })
      else .error "assert: readVarint out of bounds"
    else if ch = 0xfd then
      if br.offset + 3 ≤ br.data.length then
        .ok (leDecode ((br.data.drop (br.offset + 1)).take 2),
          { br with offset := br.offset + 3 })
      else .error "assert: readVarint out of bounds"
    else
      .ok (ch, { br with offset := br.offset + 1 })
  else .error "assert: readVarint out of bounds"

/-- Read a varint number of bytes.  The optional argument of the source is
a zero-copy flag, forwarded to `readBytes`. -/
def readVarBytes (br : BufferReader) (zeroCopy : Bool := false) :
    Except String (List Nat × BufferReader) := do
  let (size, br₁) ← br.readVarint
  br₁.readBytes size zeroCopy

/-- Read a string of a varint length with an optional size limit
(`limit = 0` models the absent/falsy JS argument, exactly like the
source's `assert(!limit || size <= limit)`). -/
def readVarString (br : BufferReader) (limit : Nat := 0) :
    Except String (List Nat × BufferReader) := do
  let (size, br₁) ← br.readVarint
  if limit = 0 ∨ size ≤ limit then br₁.readString size
  else .error "String exceeds limit."

/-- Create a checksum from the last start position.  With an empty span
stack, `this.stack[this.stack.length - 1] || 0` evaluates to 0, so the
hash covers the bytes from offset 0 to the current offset. -/
def createChecksum (H : List Nat → List Nat) (br : BufferReader) : Nat :=
  let start := (br.stack.headD 0)
  leDecode ((H ((br.data.drop start).take (br.offset - start))).take 4)

/-- Verify a 4-byte checksum against the calculated checksum. -/
def verifyChecksum (H : List Nat → List Nat) (br : BufferReader) :
    Except String (Nat × BufferReader) := do
  let chk := br.createChecksum H
  let (checksum, br₁) ← br.readU32
  if chk = checksum then .ok (checksum, br₁)
  else .error "Checksum mismatch."

end BufferReader

/-!
## HD public keys (lib/hd/public.js, lib/hd/common.js)

`hmac512`, `tweakAdd` and `hash160` are the external EC/hash capabilities
(`crypto.hmac`, `ec.publicKeyTweakAdd`, `crypto.hash160`); `tweakAdd`
returns `none` when the tweak produces an invalid point (the source throws
there).
-/

/-- Modelled from the spec: `constants.hd.HARDENED` (protocol/constants.js
is not under src/).  The child index is a 32-bit value whose high bit
denotes hardened derivation, so the hardened threshold is 2^31. -/
def HARDENED : Nat := 0x80000000

/-- The `xpubkey` network version prefixes of lib/protocol/networks.js, in
`network.types` order (main, testnet, regtest, segnet3, segnet4, simnet). -/
def networkXpubVersions : List Nat :=
  [0x0488b21e, 0x043587cf, 0x043587cf, 0x053587cf, 0x053587cf, 0x0420bd3a]

structure HDPublicKey where
  network : Nat
  depth : Nat
  parentFingerPrint : List Nat
  childIndex : Nat
  chainCode : List Nat
  publicKey : List Nat
  fingerPrint : Option (List Nat)
deriving Repr, DecidableEq

/-- The LRU derivation cache, keyed by public key and child index (the
network key-prefix component of `getID` is constant for a fixed network
and is omitted from the key). -/
abbrev HDCache := List ((List Nat × Nat) × HDPublicKey)

def cacheGet (cache : HDCache) (id : List Nat × Nat) : Option HDPublicKey :=
  (List.find? (fun e => e.1 = id) cache).map (·.2)

def cacheSet (cache : HDCache) (id : List Nat × Nat) (child : HDPublicKey) :
    HDCache :=
  (id, child) :: cache

/-- Derive a child key (HDPublicKey.prototype.derive, numeric index).
The source's `index < 0` check cannot fire for a natural-number index.
If the EC tweak-add throws, derivation is retried at `index + 1`. -/
def HDPublicKey.derive (hmac512 : List Nat → List Nat → List Nat)
    (tweakAdd : List Nat → List Nat → Option (List Nat))
    (hash160 : List Nat → List Nat)
    (k : HDPublicKey) (index : Nat) (hardened : Bool) (cache : HDCache) :
    Except String (HDPublicKey × HDCache) :=
  if h1 : HARDENED ≤ index ∨ hardened then .error "Index out of range."
  else if 0xff ≤ k.depth then .error "Depth too high."
  else match cacheGet cache (k.publicKey, index) with
    | some child => .ok (child, cache)
    | none =>
      let data := k.publicKey ++ natBE 4 index
      let hash := hmac512 data k.chainCode
      let left := hash.take 32
      let right := (hash.drop 32).take 32
      match tweakAdd k.publicKey left with
      | none => HDPublicKey.derive hmac512 tweakAdd hash160 k (index + 1) false cache
      | some key =>
        let fp := k.fingerPrint.getD ((hash160 k.publicKey).take 4)
        let child : HDPublicKey :=
          { network := k.network, depth := k.depth + 1, parentFingerPrint := fp,
            childIndex := index, chainCode := right, publicKey := key,
            fingerPrint := none }
        .ok (child, cacheSet cache (k.publicKey, index) child)
  termination_by HARDENED - index
  decreasing_by
    simp only [not_or] at h1
    obtain ⟨h2, _⟩ := h1
    simp only [HARDENED] at *
    omega

/-- Deserialize an extended public key (HDPublicKey.prototype.fromRaw).
The reader is created fresh and `start()` is never called, so the
`verifyChecksum` call runs with an empty span stack. -/
def HDPublicKey.fromRaw (H : List Nat → List Nat) (raw : List Nat) :
    Except String HDPublicKey := do
  let br := BufferReader.ofData raw
  let (version, br) ← br.readU32BE
  let (depth, br) ← br.readU8
  let (parentFP, br) ← br.readBytes 4
  let (childIndex, br) ← br.readU32BE
  let (chainCode, br) ← br.readBytes 32
  let (publicKey, br) ← br.readBytes 33
  let _ ← br.verifyChecksum H
  match networkXpubVersions.findIdx? (fun p => p = version) with
  | some i =>
    .ok { network := i, depth := depth, parentFingerPrint := parentFP,
          childIndex := childIndex, chainCode := chainCode,
          publicKey := publicKey, fingerPrint := none }
  | none => .error "Network not found."

/-!
## Claims C6, C7, C8
-/

/-- C6 (counterexample).  The claim says both `readVarBytes` and
`readVarString` accept a caller-supplied maximum-length guard.  On the
buffer `[5,1,2,3,4,5]` the decoded varint length prefix is 5, which
exceeds a guard of 2, yet `readVarBytes` succeeds and consumes the whole
5-byte payload for both values of its only optional parameter — that
parameter is a zero-copy flag, not a length guard. -/
theorem c6_counterexample :
    BufferReader.readVarBytes (BufferReader.ofData [5, 1, 2, 3, 4, 5]) false =
      .ok ([1, 2, 3, 4, 5], ⟨[5, 1, 2, 3, 4, 5], 6, []⟩) ∧
    BufferReader.readVarBytes (BufferReader.ofData [5, 1, 2, 3, 4, 5]) true =
      .ok ([1, 2, 3, 4, 5], ⟨[5, 1, 2, 3, 4, 5], 6, []⟩) ∧
    2 < 5 := by
  refine ⟨?_, ?_, by omega⟩ <;> rfl

/-- C6 (amended).  Only `readVarString` accepts the optional
maximum-length guard: whenever the decoded varint length prefix exceeds a
nonzero guard, the read fails (before the payload is consumed).
`readVarBytes` performs no guard check: whenever it succeeds it returns
the full length-prefix-sized payload. -/
theorem c6_varstring_guard (br : BufferReader) (limit size : Nat)
    (br₁ : BufferReader)
    (hvar : br.readVarint = .ok (size, br₁))
    (hlim : limit ≠ 0) (hgt : limit < size) :
    br.readVarString limit = .error "String exceeds limit." ∧
    ∀ bs br₂, br.readVarBytes false = .ok (bs, br₂) → bs.length = size := by
  constructor
  · have hns : ¬(size ≤ limit) := by omega
    simp [BufferReader.readVarString, hvar, hlim, hns, Bind.bind, Except.bind]
  · intro bs br₂ hok
    simp only [BufferReader.readVarBytes, hvar, Bind.bind, Except.bind] at hok
    simp only [BufferReader.readBytes] at hok
    split at hok
    · rename_i hle
      simp only [Except.ok.injEq, Prod.mk.injEq] at hok
      obtain ⟨hbs, -⟩ := hok
      subst hbs
      simp only [List.length_take, List.length_drop]
      omega
    · exact absurd hok (by simp)

/-- C6 (witness for the amended theorem). -/
theorem c6_witness :
    BufferReader.readVarString (BufferReader.ofData [5, 1, 2, 3, 4, 5]) 2 =
      .error "String exceeds limit." ∧
    ∀ bs br₂,
      BufferReader.readVarBytes (BufferReader.ofData [5, 1, 2, 3, 4, 5]) false =
        .ok (bs, br₂) → bs.length = 5 :=
  c6_varstring_guard (BufferReader.ofData [5, 1, 2, 3, 4, 5]) 2 5
    ⟨[5, 1, 2, 3, 4, 5], 1, []⟩ (by rfl) (by omega) (by omega)

/-- C7. Deriving from a public-only HD key with `hardened = true`, or with
a numeric index at or above the hardened threshold, always returns the
"Index out of range" error and never a child key. -/
theorem c7_hardened_public_rejected
    (hm : List Nat → List Nat → List Nat)
    (tw : List Nat → List Nat → Option (List Nat))
    (h160 : List Nat → List Nat)
    (k : HDPublicKey) (index : Nat) (hardened : Bool) (cache : HDCache)
    (h : hardened = true ∨ HARDENED ≤ index) :
    HDPublicKey.derive hm tw h160 k index hardened cache =
      .error "Index out of range." := by
  rw [HDPublicKey.derive]
  rw [dif_pos h.symm]

/-- C7 (witness). -/
theorem c7_witness :
    HDPublicKey.derive (fun _ _ => []) (fun _ _ => none) (fun _ => [])
      ⟨0, 0, [], 0, [], [], none⟩ HARDENED false [] = .error "Index out of range." ∧
    HDPublicKey.derive (fun _ _ => []) (fun _ _ => none) (fun _ => [])
      ⟨0, 0, [], 0, [], [], none⟩ 0 true [] = .error "Index out of range." :=
  ⟨c7_hardened_public_rejected _ _ _ _ _ _ _ (Or.inr (le_refl _)),
   c7_hardened_public_rejected _ _ _ _ _ _ _ (Or.inl rfl)⟩

/-- C8. If the EC tweak-add for (uncached, in-range) index `i` produces an
invalid point, `derive i` returns exactly the result of `derive (i+1)`;
and when the tweak at `i+1` succeeds, the returned child's `childIndex`
is `i + 1` — the index actually used, not the requested one. -/
theorem c8_retry_skips_index
    (hm : List Nat → List Nat → List Nat)
    (tw : List Nat → List Nat → Option (List Nat))
    (h160 : List Nat → List Nat)
    (k : HDPublicKey) (i : Nat) (cache : HDCache) (key2 : List Nat)
    (hdepth : k.depth < 0xff)
    (hi : i + 1 < HARDENED)
    (hmiss1 : cacheGet cache (k.publicKey, i) = none)
    (hfail : tw k.publicKey ((hm (k.publicKey ++ natBE 4 i) k.chainCode).take 32)
      = none)
    (hmiss2 : cacheGet cache (k.publicKey, i + 1) = none)
    (hsucc : tw k.publicKey
      ((hm (k.publicKey ++ natBE 4 (i + 1)) k.chainCode).take 32) = some key2) :
    HDPublicKey.derive hm tw h160 k i false cache =
      HDPublicKey.derive hm tw h160 k (i + 1) false cache ∧
    ∃ child cache',
      HDPublicKey.derive hm tw h160 k i false cache = .ok (child, cache') ∧
      child.childIndex = i + 1 ∧ child.publicKey = key2 := by
  have hdep2 : ¬(0xff ≤ k.depth) := by omega
  have hlt1 : ¬(HARDENED ≤ i ∨ (false : Bool) = true) := by
    simp only [HARDENED, Bool.false_eq_true, or_false] at *
    omega
  have hlt2 : ¬(HARDENED ≤ i + 1 ∨ (false : Bool) = true) := by
    simp only [HARDENED, Bool.false_eq_true, or_false] at *
    omega
  have e1 : HDPublicKey.derive hm tw h160 k i false cache =
      HDPublicKey.derive hm tw h160 k (i + 1) false cache := by
    conv_lhs => rw [HDPublicKey.derive]
    rw [dif_neg hlt1, if_neg hdep2]
    simp only [hmiss1, hfail]
  have e2 : HDPublicKey.derive hm tw h160 k (i + 1) false cache =
      .ok ({ network := k.network, depth := k.depth + 1,
             parentFingerPrint := k.fingerPrint.getD ((h160 k.publicKey).take 4),
             childIndex := i + 1,
             chainCode := ((hm (k.publicKey ++ natBE 4 (i + 1)) k.chainCode).drop 32).take 32,
             publicKey := key2, fingerPrint := none },
           cacheSet cache (k.publicKey, i + 1)
             { network := k.network, depth := k.depth + 1,
               parentFingerPrint := k.fingerPrint.getD ((h160 k.publicKey).take 4),
               childIndex := i + 1,
               chainCode := ((hm (k.publicKey ++ natBE 4 (i + 1)) k.chainCode).drop 32).take 32,
               publicKey := key2, fingerPrint := none }) := by
    rw [HDPublicKey.derive]
    rw [dif_neg hlt2, if_neg hdep2]
    simp only [hmiss2, hsucc]
  refine ⟨e1, _, _, e1.trans e2, rfl, rfl⟩

/-- C8 (witness): with a concrete tweak function failing at index 0 and
succeeding at index 1, `derive 0` equals `derive 1` and the child records
`childIndex = 1`. -/
theorem c8_witness :
    HDPublicKey.derive (fun d _ => d)
      (fun _ l => if l = [0, 0, 0, 0] then none else some [9]) (fun _ => [])
      ⟨0, 0, [], 0, [], [], none⟩ 0 false [] =
    HDPublicKey.derive (fun d _ => d)
      (fun _ l => if l = [0, 0, 0, 0] then none else some [9]) (fun _ => [])
      ⟨0, 0, [], 0, [], [], none⟩ 1 false [] ∧
    ∃ child cache',
      HDPublicKey.derive (fun d _ => d)
        (fun _ l => if l = [0, 0, 0, 0] then none else some [9]) (fun _ => [])
        ⟨0, 0, [], 0, [], [], none⟩ 0 false [] = .ok (child, cache') ∧
      child.childIndex = 0 + 1 ∧ child.publicKey = [9] :=
  c8_retry_skips_index (fun d _ => d)
    (fun _ l => if l = [0, 0, 0, 0] then none else some [9]) (fun _ => [])
    ⟨0, 0, [], 0, [], [], none⟩ 0 [] [9]
    (by decide) (by decide) (by rfl) (by rfl) (by rfl) (by rfl)

/-!
## Claim C10
-/

/-- C10. With an empty span stack, `createChecksum` computes the checksum
over the bytes from offset 0 up to the current offset (it does not fail);
and `HDPublicKey.fromRaw`, which never calls `start()`, relies on this:
on an 82-byte-or-longer extended key with a known network version prefix
it succeeds exactly when the double-hash checksum over the first 78 bytes
matches the 4 little-endian checksum bytes at offset 78. -/
theorem c10_checksum_empty_stack (H : List Nat → List Nat) (raw : List Nat)
    (hlen : 82 ≤ raw.length)
    (hver : (networkXpubVersions.findIdx?
      (fun p => p = beDecode (raw.take 4))).isSome) :
    (∀ br : BufferReader, br.stack = [] →
      BufferReader.createChecksum H br =
        leDecode ((H (br.data.take br.offset)).take 4)) ∧
    ((∃ key, HDPublicKey.fromRaw H raw = .ok key) ↔
      leDecode ((H (raw.take 78)).take 4) = leDecode ((raw.drop 78).take 4)) := by
  constructor
  · intro br h
    simp [BufferReader.createChecksum, h]
  · have h4 : 0 + 4 ≤ raw.length := by omega
    have h5 : 4 + 1 ≤ raw.length := by omega
    have h9 : 5 + 4 ≤ raw.length := by omega
    have h13 : 9 + 4 ≤ raw.length := by omega
    have h45 : 13 + 32 ≤ raw.length := by omega
    have h78 : 45 + 33 ≤ raw.length := by omega
    have h82 : 78 + 4 ≤ raw.length := by omega
    obtain ⟨i, hfind⟩ := Option.isSome_iff_exists.mp hver
    by_cases hc : leDecode ((H (raw.take 78)).take 4) =
        leDecode ((raw.drop 78).take 4)
    · refine iff_of_true ?_ hc
      simp [HDPublicKey.fromRaw, BufferReader.ofData, BufferReader.readU32BE,
        BufferReader.readU8, BufferReader.readBytes, BufferReader.verifyChecksum,
        BufferReader.readU32, BufferReader.createChecksum, Bind.bind, Except.bind,
        h4, h5, h9, h13, h45, h78, h82, hc, hfind]
    · refine iff_of_false ?_ hc
      rintro ⟨key, hkey⟩
      simp [HDPublicKey.fromRaw, BufferReader.ofData, BufferReader.readU32BE,
        BufferReader.readU8, BufferReader.readBytes, BufferReader.verifyChecksum,
        BufferReader.readU32, BufferReader.createChecksum, Bind.bind, Except.bind,
        h4, h5, h9, h13, h45, h78, h82, hc, hfind] at hkey

/-- C10 (witness): a concrete 82-byte main-network extended key whose
checksum bytes match the hash of its first 78 bytes deserializes
successfully. -/
theorem c10_witness :
    ∃ key, HDPublicKey.fromRaw (fun _ => List.replicate 32 7)
      ([4, 136, 178, 30] ++ List.replicate 74 0 ++ [7, 7, 7, 7]) = .ok key :=
  (c10_checksum_empty_stack (fun _ => List.replicate 32 7)
    ([4, 136, 178, 30] ++ List.replicate 74 0 ++ [7, 7, 7, 7])
    (by decide) (by decide)).2.mpr (by decide)

/-!
## BufferWriter (lib/utils/writer.js)

The writer queues typed write instructions and keeps a running byte
count; nothing touches memory until `render`, which allocates exactly
`written` bytes and replays the queue.  `H` is the external double-hash
used by the CHECKSUM instruction.  IEEE float bit-conversion is performed
by the external Buffer methods; floats are modelled as a fixed-width
little-endian encoding of the carried value since only the 4/8-byte
widths matter to the serializer.  `writeVarint2`, whose encoder lives in
the absent utils/encoding.js and is not described by the spec, is not
modelled.
-/

/-- Two's-complement little-endian encoding of an integer in `w` bytes, as
produced by the Buffer writeIntLE family. -/
def intLE (w : Nat) (v : Int) : List Nat :=
  natLE w ((v % ((2 : Int) ^ (8 * w))).toNat)

/-- Big-endian variant of `intLE`. -/
def intBE (w : Nat) (v : Int) : List Nat :=
  (intLE w v).reverse

/-- Modelled from the spec: `encoding.sizeVarint` (utils/encoding.js is
not under src/): exact encoded width of the standard variable-length
integer. -/
def sizeVarint (v : Nat) : Nat :=
  if v < 0xfd then 1 else if v ≤ 0xffff then 3
  else if v ≤ 0xffffffff then 5 else 9

/-- Modelled from the spec: `encoding.writeVarint` byte image. -/
def varintEnc (v : Nat) : List Nat :=
  if v < 0xfd then [v] else if v ≤ 0xffff then 0xfd :: natLE 2 v
  else if v ≤ 0xffffffff then 0xfe :: natLE 4 v else 0xff :: natLE 8 v

/-- A queued write instruction (the `WriteOp` objects of the source). -/
inductive WriteOp where
  | seek (n : Nat)
  | ui8 (v : Nat) | ui16 (v : Nat) | ui16be (v : Nat)
  | ui32 (v : Nat) | ui32be (v : Nat) | ui64 (v : Nat) | ui64be (v : Nat)
  | i8 (v : Int) | i16 (v : Int) | i16be (v : Int)
  | i32 (v : Int) | i32be (v : Int) | i64 (v : Int) | i64be (v : Int)
  | fl (v : Nat) | flbe (v : Nat) | dbl (v : Nat) | dblbe (v : Nat)
  | varint (v : Nat)
  | bytes (b : List Nat)
  | str (s : List Nat)
  | chk
  | fill (v : Nat) (size : Nat)
deriving Repr, DecidableEq

structure BufferWriter where
  ops : List WriteOp
  written : Nat
deriving Repr, DecidableEq

/-- Replay one queued instruction into `data` at offset `off`, returning
the updated buffer and offset, exactly as the switch inside `render`:
fixed-width writes advance by their width, BYTES/STR advance by the
number of bytes actually copied (`Buffer.copy` truncates at the end of
the target), CHECKSUM hashes everything written so far and copies the
first 4 hash bytes, FILL repeats a byte. -/
def renderOp (H : List Nat → List Nat) (data : List Nat) (off : Nat) :
    WriteOp → List Nat × Nat
  | .seek n => (data, off + n)
  | .ui8 v => (bufWrite data off (natLE 1 v), off + 1)
  | .ui16 v => (bufWrite data off (natLE 2 v), off + 2)
  | .ui16be v => (bufWrite data off (natBE 2 v), off + 2)
  | .ui32 v => (bufWrite data off (natLE 4 v), off + 4)
  | .ui32be v => (bufWrite data off (natBE 4 v), off + 4)
  | .ui64 v => (bufWrite data off (natLE 8 v), off + 8)
  | .ui64be v => (bufWrite data off (natBE 8 v), off + 8)
  | .i8 v => (bufWrite data off (intLE 1 v), off + 1)
  | .i16 v => (bufWrite data off (intLE 2 v), off + 2)
  | .i16be v => (bufWrite data off (intBE 2 v), off + 2)
  | .i32 v => (bufWrite data off (intLE 4 v), off + 4)
  | .i32be v => (bufWrite data off (intBE 4 v), off + 4)
  | .i64 v => (bufWrite data off (intLE 8 v), off + 8)
  | .i64be v => (bufWrite data off (intBE 8 v), off + 8)
  | .fl v => (bufWrite data off (natLE 4 v), off + 4)
  | .flbe v => (bufWrite data off (natBE 4 v), off + 4)
  | .dbl v => (bufWrite data off (natLE 8 v), off + 8)
  | .dblbe v => (bufWrite data off (natBE 8 v), off + 8)
  | .varint v => (bufWrite data off (varintEnc v), off + (varintEnc v).length)
  | .bytes b => (bufWrite data off b, off + min b.length (data.length - off))
  | .str s => (bufWrite data off s, off + min s.length (data.length - off))
  | .chk =>
    let h := (H (data.take off)).take 4
    (bufWrite data off h, off + min h.length (data.length - off))
  | .fill v size => (bufWrite data off (List.replicate size v), off + size)

/-- Allocate a buffer of exactly `written` bytes, replay every queued
instruction in order, and assert the final offset equals the buffer
length (`none` models the fatal assertion failure).  The `keep` flag of
the source only controls whether internal state is cleared afterwards
and does not affect the rendered bytes. -/
def BufferWriter.render (H : List Nat → List Nat) (w : BufferWriter) :
    Option (List Nat) :=
  let out := w.ops.foldl (fun (p : List Nat × Nat) op => renderOp H p.1 p.2 op)
    (List.replicate w.written 0, 0)
  if out.2 = out.1.length then some out.1 else none

def BufferWriter.empty : BufferWriter := ⟨[], 0⟩

def BufferWriter.seekOp (w : BufferWriter) (n : Nat) : BufferWriter :=
  ⟨w.ops ++ [.seek n], w.written + n⟩

def BufferWriter.writeU8 (w : BufferWriter) (v : Nat) : BufferWriter :=
  ⟨w.ops ++ [.ui8 v], w.written + 1⟩

def BufferWriter.writeU16 (w : BufferWriter) (v : Nat) : BufferWriter :=
  ⟨w.ops ++ [.ui16 v], w.written + 2⟩

def BufferWriter.writeU16BE (w : BufferWriter) (v : Nat) : BufferWriter :=
  ⟨w.ops ++ [.ui16be v], w.written + 2⟩

def BufferWriter.writeU32 (w : BufferWriter) (v : Nat) : BufferWriter :=
  ⟨w.ops ++ [.ui32 v], w.written + 4⟩

def BufferWriter.writeU32BE (w : BufferWriter) (v : Nat) : BufferWriter :=
  ⟨w.ops ++ [.ui32be v], w.written + 4⟩

def BufferWriter.writeU64 (w : BufferWriter) (v : Nat) : BufferWriter :=
  ⟨w.ops ++ [.ui64 v], w.written + 8⟩

def BufferWriter.writeU64BE (w : BufferWriter) (v : Nat) : BufferWriter :=
  ⟨w.ops ++ [.ui64be v], w.written + 8⟩

def BufferWriter.write8 (w : BufferWriter) (v : Int) : BufferWriter :=
  ⟨w.ops ++ [.i8 v], w.written + 1⟩

def BufferWriter.write16 (w : BufferWriter) (v : Int) : BufferWriter :=
  ⟨w.ops ++ [.i16 v], w.written + 2⟩

def BufferWriter.write16BE (w : BufferWriter) (v : Int) : BufferWriter :=
  ⟨w.ops ++ [.i16be v], w.written + 2⟩

def BufferWriter.write32 (w : BufferWriter) (v : Int) : BufferWriter :=
  ⟨w.ops ++ [.i32 v], w.written + 4⟩

def BufferWriter.write32BE (w : BufferWriter) (v : Int) : BufferWriter :=
  ⟨w.ops ++ [.i32be v], w.written + 4⟩

def BufferWriter.write64 (w : BufferWriter) (v : Int) : BufferWriter :=
  ⟨w.ops ++ [.i64 v], w.written + 8⟩

def BufferWriter.write64BE (w : BufferWriter) (v : Int) : BufferWriter :=
  ⟨w.ops ++ [.i64be v], w.written + 8⟩

def BufferWriter.writeFloat (w : BufferWriter) (v : Nat) : BufferWriter :=
  ⟨w.ops ++ [.fl v], w.written + 4⟩

def BufferWriter.writeFloatBE (w : BufferWriter) (v : Nat) : BufferWriter :=
  ⟨w.ops ++ [.flbe v], w.written + 4⟩

def BufferWriter.writeDouble (w : BufferWriter) (v : Nat) : BufferWriter :=
  ⟨w.ops ++ [.dbl v], w.written + 8⟩

def BufferWriter.writeDoubleBE (w : BufferWriter) (v : Nat) : BufferWriter :=
  ⟨w.ops ++ [.dblbe v], w.written + 8⟩

def BufferWriter.writeVarint (w : BufferWriter) (v : Nat) : BufferWriter :=
  ⟨w.ops ++ [.varint v], w.written + sizeVarint v⟩

def BufferWriter.writeBytes (w : BufferWriter) (b : List Nat) : BufferWriter :=
  if b.length = 0 then w
  else ⟨w.ops ++ [.bytes b], w.written + b.length⟩

def BufferWriter.writeVarBytes (w : BufferWriter) (b : List Nat) : BufferWriter :=
  let w₁ : BufferWriter := ⟨w.ops ++ [.varint b.length], w.written + sizeVarint b.length⟩
  if b.length = 0 then w₁
  else ⟨w₁.ops ++ [.bytes b], w₁.written + b.length⟩

def BufferWriter.writeString (w : BufferWriter) (s : List Nat) : BufferWriter :=
  if s.length = 0 then ⟨w.ops, w.written + s.length⟩
  else ⟨w.ops ++ [.str s], w.written + s.length⟩

def BufferWriter.writeVarString (w : BufferWriter) (s : List Nat) : BufferWriter :=
  let w₁ : BufferWriter :=
    ⟨w.ops ++ [.varint s.length], w.written + sizeVarint s.length + s.length⟩
  if s.length = 0 then w₁
  else ⟨w₁.ops ++ [.str s], w₁.written⟩

def BufferWriter.writeNullString (w : BufferWriter) (s : List Nat) : BufferWriter :=
  (w.writeString s).writeU8 0

def BufferWriter.writeChecksum (w : BufferWriter) : BufferWriter :=
  ⟨w.ops ++ [.chk], w.written + 4⟩

def BufferWriter.fillOp (w : BufferWriter) (v size : Nat) : BufferWriter :=
  if size = 0 then w
  else ⟨w.ops ++ [.fill v size], w.written + size⟩

/-- A public writer operation, as invoked by a caller (one constructor per
write method of the source). -/
inductive WCmd where
  | seek (n : Nat)
  | u8 (v : Nat) | u16 (v : Nat) | u16be (v : Nat) | u32 (v : Nat)
  | u32be (v : Nat) | u64 (v : Nat) | u64be (v : Nat)
  | i8 (v : Int) | i16 (v : Int) | i16be (v : Int) | i32 (v : Int)
  | i32be (v : Int) | i64 (v : Int) | i64be (v : Int)
  | float (v : Nat) | floatbe (v : Nat) | double (v : Nat) | doublebe (v : Nat)
  | varint (v : Nat) | bytes (b : List Nat) | varbytes (b : List Nat)
  | str (s : List Nat) | varstr (s : List Nat) | nullstr (s : List Nat)
  | chk | fill (v : Nat) (size : Nat)
deriving Repr, DecidableEq

def applyWCmd (w : BufferWriter) : WCmd → BufferWriter
  | .seek n => w.seekOp n
  | .u8 v => w.writeU8 v
  | .u16 v => w.writeU16 v
  | .u16be v => w.writeU16BE v
  | .u32 v => w.writeU32 v
  | .u32be v => w.writeU32BE v
  | .u64 v => w.writeU64 v
  | .u64be v => w.writeU64BE v
  | .i8 v => w.write8 v
  | .i16 v => w.write16 v
  | .i16be v => w.write16BE v
  | .i32 v => w.write32 v
  | .i32be v => w.write32BE v
  | .i64 v => w.write64 v
  | .i64be v => w.write64BE v
  | .float v => w.writeFloat v
  | .floatbe v => w.writeFloatBE v
  | .double v => w.writeDouble v
  | .doublebe v => w.writeDoubleBE v
  | .varint v => w.writeVarint v
  | .bytes b => w.writeBytes b
  | .varbytes b => w.writeVarBytes b
  | .str s => w.writeString s
  | .varstr s => w.writeVarString s
  | .nullstr s => w.writeNullString s
  | .chk => w.writeChecksum
  | .fill v size => w.fillOp v size

def applyWCmds (cmds : List WCmd) : BufferWriter :=
  cmds.foldl applyWCmd BufferWriter.empty

/-- Exact encoded width of a queued instruction — the amount each write
method adds to the running `written` counter. -/
def opSize : WriteOp → Nat
  | .seek n => n
  | .ui8 _ => 1
  | .ui16 _ => 2
  | .ui16be _ => 2
  | .ui32 _ => 4
  | .ui32be _ => 4
  | .ui64 _ => 8
  | .ui64be _ => 8
  | .i8 _ => 1
  | .i16 _ => 2
  | .i16be _ => 2
  | .i32 _ => 4
  | .i32be _ => 4
  | .i64 _ => 8
  | .i64be _ => 8
  | .fl _ => 4
  | .flbe _ => 4
  | .dbl _ => 8
  | .dblbe _ => 8
  | .varint v => sizeVarint v
  | .bytes b => b.length
  | .str s => s.length
  | .chk => 4
  | .fill _ size => size

def opsSize (ops : List WriteOp) : Nat := (ops.map opSize).sum

theorem opsSize_append (a b : List WriteOp) :
    opsSize (a ++ b) = opsSize a + opsSize b := by
  simp [opsSize]

theorem natLE_length (w v : Nat) : (natLE w v).length = w := by
  simp [natLE]

theorem natBE_length (w v : Nat) : (natBE w v).length = w := by
  simp [natBE]

theorem intLE_length (w : Nat) (v : Int) : (intLE w v).length = w := by
  simp [intLE, natLE_length]

theorem intBE_length (w : Nat) (v : Int) : (intBE w v).length = w := by
  simp [intBE, intLE_length]

theorem varintEnc_length (v : Nat) : (varintEnc v).length = sizeVarint v := by
  simp only [varintEnc, sizeVarint]
  split_ifs <;> simp [natLE_length]

theorem renderOp_spec (H : List Nat → List Nat) (hH : ∀ b, 4 ≤ (H b).length)
    (data : List Nat) (off : Nat) (op : WriteOp)
    (hfit : off + opSize op ≤ data.length) :
    (renderOp H data off op).2 = off + opSize op ∧
    (renderOp H data off op).1.length = data.length := by
  have hchk := hH (data.take off)
  cases op <;>
    simp only [renderOp, opSize] at hfit ⊢ <;>
    refine ⟨by simp [varintEnc_length, List.length_take] <;> omega, ?_⟩ <;>
    simp only [bufWrite, List.length_append, List.length_take, List.length_drop,
      natLE_length, natBE_length, intLE_length, intBE_length, varintEnc_length,
      List.length_replicate] <;>
    omega

theorem renderFold_spec (H : List Nat → List Nat) (hH : ∀ b, 4 ≤ (H b).length) :
    ∀ (ops : List WriteOp) (data : List Nat) (off : Nat),
    off + opsSize ops ≤ data.length →
    (ops.foldl (fun (p : List Nat × Nat) op => renderOp H p.1 p.2 op) (data, off)).2
      = off + opsSize ops ∧
    (ops.foldl (fun (p : List Nat × Nat) op => renderOp H p.1 p.2 op) (data, off)).1.length
      = data.length := by
  intro ops
  induction ops with
  | nil => intro data off hfit; simp [opsSize]
  | cons op rest ih =>
    intro data off hfit
    have hsz : opsSize (op :: rest) = opSize op + opsSize rest := by
      simp [opsSize]
    rw [hsz] at hfit
    have h1 : off + opSize op ≤ data.length := by omega
    obtain ⟨e2, e1⟩ := renderOp_spec H hH data off op h1
    have hpair : renderOp H data off op =
        ((renderOp H data off op).1, off + opSize op) := by
      rw [← e2]
    have h2 : (off + opSize op) + opsSize rest ≤ (renderOp H data off op).1.length := by
      rw [e1]; omega
    obtain ⟨f2, f1⟩ := ih (renderOp H data off op).1 (off + opSize op) h2
    constructor
    · simp only [List.foldl_cons]
      rw [hpair, f2, hsz]
      omega
    · simp only [List.foldl_cons]
      rw [hpair, f1, e1]

/-- Every write method keeps `written` equal to the exact sum of the
queued instructions' widths. -/
theorem applyWCmd_sizeOk (w : BufferWriter) (c : WCmd)
    (h : w.written = opsSize w.ops) :
    (applyWCmd w c).written = opsSize (applyWCmd w c).ops := by
  cases c <;>
    simp only [applyWCmd, BufferWriter.seekOp, BufferWriter.writeU8,
      BufferWriter.writeU16, BufferWriter.writeU16BE, BufferWriter.writeU32,
      BufferWriter.writeU32BE, BufferWriter.writeU64, BufferWriter.writeU64BE,
      BufferWriter.write8, BufferWriter.write16, BufferWriter.write16BE,
      BufferWriter.write32, BufferWriter.write32BE, BufferWriter.write64,
      BufferWriter.write64BE, BufferWriter.writeFloat, BufferWriter.writeFloatBE,
      BufferWriter.writeDouble, BufferWriter.writeDoubleBE,
      BufferWriter.writeVarint, BufferWriter.writeBytes,
      BufferWriter.writeVarBytes, BufferWriter.writeString,
      BufferWriter.writeVarString, BufferWriter.writeNullString,
      BufferWriter.writeChecksum, BufferWriter.fillOp] <;>
    (try split_ifs) <;>
    simp_all [opsSize_append, opsSize, opSize] <;>
    try omega

theorem applyWCmds_sizeOk (cmds : List WCmd) :
    (applyWCmds cmds).written = opsSize (applyWCmds cmds).ops := by
  suffices h : ∀ w : BufferWriter, w.written = opsSize w.ops →
      (cmds.foldl applyWCmd w).written = opsSize (cmds.foldl applyWCmd w).ops by
    exact h BufferWriter.empty (by simp [BufferWriter.empty, opsSize])
  induction cmds with
  | nil => intro w h; simpa
  | cons c rest ih =>
    intro w h
    simp only [List.foldl_cons]
    exact ih _ (applyWCmd_sizeOk w c h)

/-- C9. For every sequence of writer operations and every intermediate
point `k` of that sequence, `render` succeeds on the writer built from
the first `k` operations — it allocates exactly `written` bytes, replays
the queued instructions in order, and the final write offset passes the
`off === data.length` assertion — and the rendered length equals the
running size counter `written`. -/
theorem c9_render_size_exact (H : List Nat → List Nat)
    (hH : ∀ b, 4 ≤ (H b).length) (cmds : List WCmd) (k : Nat) :
    ∃ data, (applyWCmds (List.take k cmds)).render H = some data ∧
      data.length = (applyWCmds (List.take k cmds)).written := by
  have hs := applyWCmds_sizeOk (List.take k cmds)
  set w := applyWCmds (List.take k cmds) with hw
  have hfit : 0 + opsSize w.ops ≤ (List.replicate w.written 0).length := by
    simp [hs]
  obtain ⟨e2, e1⟩ := renderFold_spec H hH w.ops (List.replicate w.written 0) 0 hfit
  refine ⟨(w.ops.foldl (fun (p : List Nat × Nat) op => renderOp H p.1 p.2 op)
    (List.replicate w.written 0, 0)).1, ?_, ?_⟩
  · simp only [BufferWriter.render]
    rw [if_pos (by rw [e2, e1]; simp [hs])]
  · rw [e1]; simp

/-- C9 (witness): a concrete operation sequence containing fixed-width,
varint, string, seek, checksum and fill writes renders successfully with
rendered length equal to the size counter at the full sequence. -/
theorem c9_witness :
    ∃ data,
      (applyWCmds (List.take 7 [WCmd.u8 5, WCmd.varstr [1, 2], WCmd.chk,
        WCmd.seek 2, WCmd.bytes [9, 9, 9], WCmd.fill 7 3,
        WCmd.i32 (-5)])).render (fun _ => List.replicate 32 1) = some data ∧
      data.length = (applyWCmds (List.take 7 [WCmd.u8 5, WCmd.varstr [1, 2],
        WCmd.chk, WCmd.seek 2, WCmd.bytes [9, 9, 9], WCmd.fill 7 3,
        WCmd.i32 (-5)])).written :=
  c9_render_size_exact (fun _ => List.replicate 32 1)
    (fun _ => by simp) _ 7

/-!
## Partial merkle trees (lib/primitives/merkleblock.js)

`H` is the external double-SHA256 (`crypto.hash256`).  The source hashes
interior nodes by copying the two 32-byte children into a shared 64-byte
buffer; for the 32-byte hashes produced by `tx.hash()` and `hash256`
this equals concatenation, which is how `H (left ++ right)` models it.
-/

/-- Modelled from the spec: `constants.block.MAX_SIZE` (protocol/constants.js
is not under src/) — the 1 MB block-size ceiling; extractTree rejects
claimed transaction counts above `MAX_SIZE / 60` as a resource-exhaustion
guard. -/
def BLOCK_MAX_SIZE : Nat := 1000000

/-- Modelled from the spec: `constants.ZERO_HASH` — 32 zero bytes; returned
by failing traversal branches, never used on success. -/
def ZERO_HASH : List Nat := List.replicate 32 0

/-- Level width of the tree: `(totalTX + (1 << height) - 1) >>> height`. -/
def mwidth (totalTX height : Nat) : Nat :=
  (totalTX + 2 ^ height - 1) / 2 ^ height

/-- The `while (width(height) > 1) height++` loop, with explicit fuel; the
loop reaches its fixpoint after at most `totalTX` steps. -/
def theightGo (totalTX : Nat) : Nat → Nat → Nat
  | 0, h => h
  | fuel + 1, h =>
    if 1 < mwidth totalTX h then theightGo totalTX fuel (h + 1) else h

def treeHeight (totalTX : Nat) : Nat := theightGo totalTX totalTX 0

/-- The `hash(height, pos, leaves)` closure of `fromMatches` (identical to
the recomputation in `extractTree`): the subtree hash at a node,
duplicating the left child when the right sibling does not exist. -/
def buildHash (H : List Nat → List Nat) (totalTX : Nat)
    (leaves : List (List Nat)) : Nat → Nat → List Nat
  | 0, pos => leaves.getD pos []
  | h + 1, pos =>
    let left := buildHash H totalTX leaves h (pos * 2)
    let right := if pos * 2 + 1 < mwidth totalTX h
      then buildHash H totalTX leaves h (pos * 2 + 1)
      else left
    H (left ++ right)

/-- The `parent |= mvec[p]` loop of the build traverse closure: whether
any leaf inside the subtree at (height, pos) is matched. -/
def anyMatch (mvec : List Bool) (totalTX height pos : Nat) : Bool :=
  (List.range' (pos * 2 ^ height)
    (min ((pos + 1) * 2 ^ height) totalTX - pos * 2 ^ height)).any
    fun p => mvec.getD p false

/-- The `traverse(height, pos, leaves, mvec)` closure of `fromMatches`:
the flag bits and subtree hashes pushed, in traversal order. -/
def buildTraverse (H : List Nat → List Nat) (totalTX : Nat)
    (leaves : List (List Nat)) (mvec : List Bool) :
    Nat → Nat → List Bool × List (List Nat)
  | 0, pos =>
    ([anyMatch mvec totalTX 0 pos], [buildHash H totalTX leaves 0 pos])
  | h + 1, pos =>
    let parent := anyMatch mvec totalTX (h + 1) pos
    if parent = false then
      ([false], [buildHash H totalTX leaves (h + 1) pos])
    else
      let L := buildTraverse H totalTX leaves mvec h (pos * 2)
      let R := if pos * 2 + 1 < mwidth totalTX h
        then buildTraverse H totalTX leaves mvec h (pos * 2 + 1)
        else (([] : List Bool), ([] : List (List Nat)))
      (true :: (L.1 ++ R.1), L.2 ++ R.2)

/-- One byte of the packed flag stream, bits LSB-first. -/
def byteVal (l : List Bool) : Nat :=
  l.foldr (fun b acc => 2 * acc + (if b then 1 else 0)) 0

/-- Pack the bit list into `(bits.length + 7) / 8` bytes, LSB-first per
byte (`flags[p / 8] |= bits[p] << (p % 8)`). -/
def packBits (bits : List Bool) : List Nat :=
  (List.range ((bits.length + 7) / 8)).map fun i =>
    byteVal ((List.range 8).map fun j => bits.getD (8 * i + j) false)

/-- Read flag bit `i`: `(flags[i / 8] >>> (i % 8)) & 1`. -/
def getFlagBit (flags : List Nat) (i : Nat) : Nat :=
  (flags.getD (i / 8) 0 >>> (i % 8)) &&& 1

/-- The serialized partial-merkle-tree payload of a MerkleBlock: claimed
transaction count, hash list and packed flag bits (the header fields are
not consulted by `extractTree`). -/
structure MerkleData where
  totalTX : Nat
  hashes : List (List Nat)
  flags : List Nat
deriving Repr, DecidableEq

/-- Build a merkleblock from a block's leaf hashes and a match vector
(`MerkleBlock.fromMatches`). -/
def fromMatches (H : List Nat → List Nat) (leaves : List (List Nat))
    (mvec : List Bool) : MerkleData :=
  let totalTX := leaves.length
  let bt := buildTraverse H totalTX leaves mvec (treeHeight totalTX) 0
  { totalTX := totalTX, hashes := bt.2, flags := packBits bt.1 }

/-- The mutable outer state of the extract traversal: bit cursor, hash
cursor, collected matched hashes with their leaf positions, and the
failure flag. -/
structure ExtState where
  bitsUsed : Nat
  hashUsed : Nat
  matched : List (List Nat)
  indexes : List Nat
  failed : Bool
deriving Repr, DecidableEq

/-- The `traverse(height, pos)` closure of `extractTree`: consume one flag
bit; at a leaf or an uninteresting node consume one hash (recording
matched leaves with their positions); otherwise recurse into the
children, fail on bit-for-bit identical sibling hashes, and recompute the
parent hash. -/
def extTraverse (H : List Nat → List Nat) (flags : List Nat)
    (hashes : List (List Nat)) (totalTX : Nat) :
    Nat → Nat → ExtState → List Nat × ExtState
  | 0, pos, st =>
    if flags.length * 8 ≤ st.bitsUsed then (ZERO_HASH, { st with failed := true })
    else
      let parent := getFlagBit flags st.bitsUsed
      let st := { st with bitsUsed := st.bitsUsed + 1 }
      if hashes.length ≤ st.hashUsed then (ZERO_HASH, { st with failed := true })
      else
        let hash := hashes.getD st.hashUsed []
        let st := { st with hashUsed := st.hashUsed + 1 }
        if parent ≠ 0 then
          (hash, { st with matched := st.matched ++ [hash],
                           indexes := st.indexes ++ [pos] })
        else (hash, st)
  | h + 1, pos, st =>
    if flags.length * 8 ≤ st.bitsUsed then (ZERO_HASH, { st with failed := true })
    else
      let parent := getFlagBit flags st.bitsUsed
      let st := { st with bitsUsed := st.bitsUsed + 1 }
      if parent = 0 then
        if hashes.length ≤ st.hashUsed then (ZERO_HASH, { st with failed := true })
        else
          let hash := hashes.getD st.hashUsed []
          (hash, { st with hashUsed := st.hashUsed + 1 })
      else
        let out₁ := extTraverse H flags hashes totalTX h (pos * 2) st
        if pos * 2 + 1 < mwidth totalTX h then
          let out₂ := extTraverse H flags hashes totalTX h (pos * 2 + 1) out₁.2
          let st₃ := if out₂.1 = out₁.1 then { out₂.2 with failed := true } else out₂.2
          (H (out₁.1 ++ out₂.1), st₃)
        else
          (H (out₁.1 ++ out₁.1), out₁.2)

/-- The result of a successful extraction: recomputed root, matched
hashes, their leaf positions, and the hash→position map (modelled as an
association list). -/
structure PartTree where
  root : List Nat
  matched : List (List Nat)
  indexes : List Nat
  map : List (List Nat × Nat)
deriving Repr, DecidableEq

/-- Extract the mvec from the partial merkle tree and recompute the
merkle root (`MerkleBlock.prototype.extractTree`): sanity pre-checks,
full traversal, then exact-consumption post-checks; any failure rejects
the whole structure with no partial result. -/
def extractTree (H : List Nat → List Nat) (mb : MerkleData) : Option PartTree :=
  if mb.totalTX = 0 then none
  else if BLOCK_MAX_SIZE / 60 < mb.totalTX then none
  else if mb.totalTX < mb.hashes.length then none
  else if mb.flags.length * 8 < mb.hashes.length then none
  else
    let out := extTraverse H mb.flags mb.hashes mb.totalTX
      (treeHeight mb.totalTX) 0 ⟨0, 0, [], [], false⟩
    if out.2.failed then none
    else if (out.2.bitsUsed + 7) / 8 ≠ mb.flags.length then none
    else if out.2.hashUsed ≠ mb.hashes.length then none
    else some ⟨out.1, out.2.matched, out.2.indexes,
      out.2.matched.zip out.2.indexes⟩

/-- The merkle root of the block's full transaction list, as recomputed
over the complete tree. -/
def merkleRootOf (H : List Nat → List Nat) (leaves : List (List Nat)) : List Nat :=
  buildHash H leaves.length leaves (treeHeight leaves.length) 0

/-- The matched leaf hashes in the index interval `[lo, hi)`, in position
order. -/
def matchedH (leaves : List (List Nat)) (mvec : List Bool) (lo hi : Nat) :
    List (List Nat) :=
  (List.range' lo (hi - lo)).filterMap fun p =>
    if mvec.getD p false then some (leaves.getD p []) else none

/-- The positions of the matched leaves in the index interval `[lo, hi)`. -/
def matchedI (mvec : List Bool) (lo hi : Nat) : List Nat :=
  (List.range' lo (hi - lo)).filter fun p => mvec.getD p false

/-- All matched leaf hashes of the block, in position order. -/
def matchedHashes (leaves : List (List Nat)) (mvec : List Bool) :
    List (List Nat) :=
  matchedH leaves mvec 0 leaves.length

/-- The positions of all matched leaves of the block. -/
def matchedIndexes (leaves : List (List Nat)) (mvec : List Bool) : List Nat :=
  matchedI mvec 0 leaves.length

/-- No two sibling subtree hashes anywhere in the full tree over `leaves`
are bit-for-bit identical (what collision-freeness of the hash gives a
real block). -/
def noDupTree (H : List Nat → List Nat) (totalTX : Nat)
    (leaves : List (List Nat)) : Nat → Nat → Bool
  | 0, _ => true
  | h + 1, pos =>
    if pos * 2 + 1 < mwidth totalTX h then
      decide (buildHash H totalTX leaves h (pos * 2) ≠
        buildHash H totalTX leaves h (pos * 2 + 1))
      && noDupTree H totalTX leaves h (pos * 2)
      && noDupTree H totalTX leaves h (pos * 2 + 1)
    else noDupTree H totalTX leaves h (pos * 2)

theorem byteVal_cons (b : Bool) (t : List Bool) :
    byteVal (b :: t) = 2 * byteVal t + (if b then 1 else 0) := by
  simp [byteVal]

theorem byteVal_bit (l : List Bool) (j : Nat) :
    (byteVal l >>> j) &&& 1 = (if l.getD j false then 1 else 0) := by
  rw [Nat.shiftRight_eq_div_pow, Nat.and_one_is_mod]
  induction l generalizing j with
  | nil => simp [byteVal]
  | cons b t ih =>
    cases j with
    | zero =>
      rw [byteVal_cons]
      cases b <;> simp <;> omega
    | succ j =>
      rw [byteVal_cons]
      have h2 : (2 * byteVal t + (if b then 1 else 0)) / 2 ^ (j + 1)
          = byteVal t / 2 ^ j := by
        have e : (2 : Nat) ^ (j + 1) = 2 * 2 ^ j := by ring
        rw [e, ← Nat.div_div_eq_div_mul]
        congr 1
        cases b <;> simp <;> omega
      rw [h2, ih]
      simp

theorem packBits_length (bits : List Bool) :
    (packBits bits).length = (bits.length + 7) / 8 := by
  simp [packBits]

theorem getFlagBit_packBits (bits : List Bool) (i : Nat) :
    getFlagBit (packBits bits) i = (if bits.getD i false then 1 else 0) := by
  unfold getFlagBit packBits
  by_cases hc : i / 8 < (bits.length + 7) / 8
  · have h1 : (((List.range ((bits.length + 7) / 8)).map fun k =>
        byteVal ((List.range 8).map fun j => bits.getD (8 * k + j) false)).getD
        (i / 8) 0) =
        byteVal ((List.range 8).map fun j => bits.getD (8 * (i / 8) + j) false) := by
      rw [List.getD_eq_getElem?_getD, List.getElem?_map, List.getElem?_range hc]
      rfl
    rw [h1, byteVal_bit]
    have h8 : i % 8 < 8 := Nat.mod_lt _ (by omega)
    have h2 : (((List.range 8).map fun j =>
        bits.getD (8 * (i / 8) + j) false).getD (i % 8) false) =
        bits.getD (8 * (i / 8) + i % 8) false := by
      rw [List.getD_eq_getElem?_getD, List.getElem?_map, List.getElem?_range h8]
      rfl
    rw [h2, Nat.div_add_mod]
  · have hge : ((bits.length + 7) / 8) ≤ i / 8 := by omega
    have h1 : (((List.range ((bits.length + 7) / 8)).map fun k =>
        byteVal ((List.range 8).map fun j => bits.getD (8 * k + j) false)).getD
        (i / 8) 0) = 0 := by
      apply List.getD_eq_default
      simpa using hge
    have hib : bits.length ≤ i := by omega
    rw [h1, List.getD_eq_default _ _ hib]
    simp

theorem mwidth_zero (n : Nat) : mwidth n 0 = n := by
  simp [mwidth]

theorem lt_mwidth_iff (n h q : Nat) : q < mwidth n h ↔ q * 2 ^ h < n := by
  have hm : 0 < 2 ^ h := by positivity
  unfold mwidth
  constructor
  · intro hq
    have h2 : (q + 1) * 2 ^ h ≤ n + 2 ^ h - 1 :=
      (Nat.le_div_iff_mul_le hm).mp hq
    have h3 : (q + 1) * 2 ^ h = q * 2 ^ h + 2 ^ h := by ring
    omega
  · intro hq
    have h3 : (q + 1) * 2 ^ h = q * 2 ^ h + 2 ^ h := by ring
    have h2 : (q + 1) * 2 ^ h ≤ n + 2 ^ h - 1 := by omega
    exact (Nat.le_div_iff_mul_le hm).mpr h2

theorem mwidth_child (n h pos : Nat) (hp : pos < mwidth n (h + 1)) :
    pos * 2 < mwidth n h := by
  rw [lt_mwidth_iff] at hp ⊢
  have e : pos * 2 ^ (h + 1) = pos * 2 * 2 ^ h := by ring
  omega

theorem mwidth_pos (n h : Nat) (hn : 0 < n) : 0 < mwidth n h := by
  rw [lt_mwidth_iff]
  simpa

theorem theightGo_spec (n : Nat) :
    ∀ fuel h, n - 1 < 2 ^ (h + fuel) → n ≤ 2 ^ theightGo n fuel h
  | 0, h, hf => by
    unfold theightGo
    simp only [Nat.add_zero] at hf
    omega
  | fuel + 1, h, hf => by
    unfold theightGo
    split_ifs with hw
    · apply theightGo_spec n fuel (h + 1)
      rw [show h + 1 + fuel = h + (fuel + 1) from by omega]
      exact hf
    · have h2 : ¬(1 * 2 ^ h < n) := fun hc => hw ((lt_mwidth_iff n h 1).mpr hc)
      simp only [one_mul] at h2
      omega

theorem treeHeight_le (n : Nat) : n ≤ 2 ^ treeHeight n := by
  apply theightGo_spec
  have h1 := Nat.lt_two_pow n
  simp only [Nat.zero_add]
  omega

theorem anyMatch_zero (mvec : List Bool) (n pos : Nat) (hp : pos < n) :
    anyMatch mvec n 0 pos = mvec.getD pos false := by
  unfold anyMatch
  have e2 : min ((pos + 1) * 2 ^ 0) n - pos * 2 ^ 0 = 1 := by
    simp only [pow_zero, mul_one]
    omega
  have e1 : pos * 2 ^ 0 = pos := by simp
  rw [e2, e1, List.range'_one]
  simp

theorem matchedH_append (leaves : List (List Nat)) (mvec : List Bool)
    (lo mid hi : Nat) (h1 : lo ≤ mid) (h2 : mid ≤ hi) :
    matchedH leaves mvec lo hi =
      matchedH leaves mvec lo mid ++ matchedH leaves mvec mid hi := by
  unfold matchedH
  rw [← List.filterMap_append]
  congr 1
  have e := List.range'_append lo (mid - lo) (hi - mid) 1
  simp only [one_mul] at e
  rw [show lo + (mid - lo) = mid from by omega] at e
  rw [show hi - mid + (mid - lo) = hi - lo from by omega] at e
  exact e.symm

theorem matchedI_append (mvec : List Bool) (lo mid hi : Nat)
    (h1 : lo ≤ mid) (h2 : mid ≤ hi) :
    matchedI mvec lo hi = matchedI mvec lo mid ++ matchedI mvec mid hi := by
  unfold matchedI
  rw [← List.filter_append]
  congr 1
  have e := List.range'_append lo (mid - lo) (hi - mid) 1
  simp only [one_mul] at e
  rw [show lo + (mid - lo) = mid from by omega] at e
  rw [show hi - mid + (mid - lo) = hi - lo from by omega] at e
  exact e.symm

theorem anyMatch_false_nil (leaves : List (List Nat)) (mvec : List Bool)
    (n h pos : Nat) (ha : anyMatch mvec n h pos = false) :
    matchedH leaves mvec (pos * 2 ^ h) (min ((pos + 1) * 2 ^ h) n) = [] ∧
    matchedI mvec (pos * 2 ^ h) (min ((pos + 1) * 2 ^ h) n) = [] := by
  unfold anyMatch at ha
  rw [List.any_eq_false] at ha
  constructor
  · unfold matchedH
    rw [List.filterMap_eq_nil]
    intro p hp
    have := ha p hp
    simp_all
  · unfold matchedI
    rw [List.filter_eq_nil]
    intro p hp
    have := ha p hp
    simp_all

theorem matchedH_zero (leaves : List (List Nat)) (mvec : List Bool)
    (n pos : Nat) (hp : pos < n) :
    matchedH leaves mvec (pos * 2 ^ 0) (min ((pos + 1) * 2 ^ 0) n) =
      (if mvec.getD pos false then [leaves.getD pos []] else []) := by
  unfold matchedH
  have e2 : min ((pos + 1) * 2 ^ 0) n - pos * 2 ^ 0 = 1 := by
    simp only [pow_zero, mul_one]
    omega
  have e1 : pos * 2 ^ 0 = pos := by simp
  rw [e2, e1, List.range'_one]
  cases hm : mvec.getD pos false <;>
    simp only [List.getD_eq_getElem?_getD] at hm ⊢ <;>
    simp [hm]

theorem matchedI_zero (mvec : List Bool) (n pos : Nat) (hp : pos < n) :
    matchedI mvec (pos * 2 ^ 0) (min ((pos + 1) * 2 ^ 0) n) =
      (if mvec.getD pos false then [pos] else []) := by
  unfold matchedI
  have e2 : min ((pos + 1) * 2 ^ 0) n - pos * 2 ^ 0 = 1 := by
    simp only [pow_zero, mul_one]
    omega
  have e1 : pos * 2 ^ 0 = pos := by simp
  rw [e2, e1, List.range'_one]
  cases hm : mvec.getD pos false <;>
    simp only [List.getD_eq_getElem?_getD] at hm ⊢ <;>
    simp [hm]

/-- Round-trip core: running the extract traversal against the bit/hash
streams produced by the build traversal reconstructs the subtree hash,
consumes exactly the produced bits and hashes, collects exactly the
matched leaves of the subtree with their positions, and never fails. -/
theorem ext_build (H : List Nat → List Nat) (leaves : List (List Nat))
    (mvec : List Bool) (flags : List Nat) (hashes : List (List Nat)) (n : Nat)
    (h pos : Nat) (st : ExtState) :
    pos < mwidth n h →
    (∀ k, k < (buildTraverse H n leaves mvec h pos).1.length →
      getFlagBit flags (st.bitsUsed + k) =
        (if (buildTraverse H n leaves mvec h pos).1.getD k false then 1 else 0)) →
    st.bitsUsed + (buildTraverse H n leaves mvec h pos).1.length ≤
      flags.length * 8 →
    (∀ k, k < (buildTraverse H n leaves mvec h pos).2.length →
      hashes.getD (st.hashUsed + k) [] =
        (buildTraverse H n leaves mvec h pos).2.getD k []) →
    st.hashUsed + (buildTraverse H n leaves mvec h pos).2.length ≤
      hashes.length →
    noDupTree H n leaves h pos = true →
    st.failed = false →
    extTraverse H flags hashes n h pos st =
      (buildHash H n leaves h pos,
       { bitsUsed := st.bitsUsed + (buildTraverse H n leaves mvec h pos).1.length,
         hashUsed := st.hashUsed + (buildTraverse H n leaves mvec h pos).2.length,
         matched := st.matched ++
           matchedH leaves mvec (pos * 2 ^ h) (min ((pos + 1) * 2 ^ h) n),
         indexes := st.indexes ++
           matchedI mvec (pos * 2 ^ h) (min ((pos + 1) * 2 ^ h) n),
         failed := false }) := by
  induction h generalizing pos st with
  | zero =>
    intro hpos hb hbb hh hhb hnd hfail
    have hpn : pos < n := by
      rw [mwidth_zero] at hpos
      exact hpos
    have hb0 := hb 0 (by simp [buildTraverse])
    have hh0 := hh 0 (by simp [buildTraverse])
    simp only [buildTraverse, List.getD_cons_zero, Nat.add_zero] at hb0 hh0
    simp only [buildTraverse, List.length_cons, List.length_nil] at hbb hhb ⊢
    simp only [anyMatch_zero mvec n pos hpn] at hb0
    rw [matchedH_zero leaves mvec n pos hpn, matchedI_zero mvec n pos hpn]
    simp only [extTraverse]
    rw [if_neg (by omega)]
    simp only [hb0]
    simp only [buildHash] at hh0 ⊢
    rw [if_neg (by omega)]
    rw [hh0]
    cases hm : mvec.getD pos false <;> simp [hm, hfail]
  | succ h ih =>
    intro hpos hb hbb hh hhb hnd hfail
    by_cases hP : anyMatch mvec n (h + 1) pos = false
    · -- uninteresting interior node: one 0-bit, one subtree hash
      have hBT : buildTraverse H n leaves mvec (h + 1) pos =
          ([false], [buildHash H n leaves (h + 1) pos]) := by
        simp [buildTraverse, hP]
      simp only [hBT, List.length_cons, List.length_nil] at hb hbb hh hhb
      have hb0 := hb 0 (by omega)
      have hh0 := hh 0 (by omega)
      simp only [List.getD_cons_zero, Nat.add_zero] at hb0 hh0
      obtain ⟨hmh, hmi⟩ := anyMatch_false_nil leaves mvec n (h + 1) pos hP
      rw [hBT, hmh, hmi]
      simp only [extTraverse]
      rw [if_neg (by omega)]
      simp only [hb0]
      rw [if_pos (by simp)]
      rw [if_neg (by omega)]
      simp only [List.getD_eq_getElem?_getD] at hh0
      simp [hh0, hfail]
    · have hPt : anyMatch mvec n (h + 1) pos = true := by
        cases hA : anyMatch mvec n (h + 1) pos
        · exact absurd hA hP
        · rfl
      set L := buildTraverse H n leaves mvec h (pos * 2) with hLdef
      by_cases hr : pos * 2 + 1 < mwidth n h
      · -- both children exist
        set R := buildTraverse H n leaves mvec h (pos * 2 + 1) with hRdef
        have hBT : buildTraverse H n leaves mvec (h + 1) pos =
            (true :: (L.1 ++ R.1), L.2 ++ R.2) := by
          rw [hLdef, hRdef]
          simp [buildTraverse, hPt, hr]
        simp only [hBT, List.length_cons, List.length_append] at hb hbb hh hhb
        have hnd2 : noDupTree H n leaves (h + 1) pos =
            (decide (buildHash H n leaves h (pos * 2) ≠
              buildHash H n leaves h (pos * 2 + 1))
             && noDupTree H n leaves h (pos * 2)
             && noDupTree H n leaves h (pos * 2 + 1)) := by
          simp [noDupTree, hr]
        rw [hnd2] at hnd
        simp only [Bool.and_eq_true, decide_eq_true_eq] at hnd
        obtain ⟨⟨hne, hndL⟩, hndR⟩ := hnd
        -- left-child stream hypotheses
        have hbL : ∀ k, k < L.1.length →
            getFlagBit flags (st.bitsUsed + 1 + k) =
              (if L.1.getD k false then 1 else 0) := by
          intro k hk
          have h1 := hb (k + 1) (by omega)
          have e : st.bitsUsed + (k + 1) = st.bitsUsed + 1 + k := by omega
          rw [e, List.getD_cons_succ, List.getD_append _ _ _ _ hk] at h1
          exact h1
        have hhL : ∀ k, k < L.2.length →
            hashes.getD (st.hashUsed + k) [] = L.2.getD k [] := by
          intro k hk
          have h1 := hh k (by omega)
          rw [List.getD_append _ _ _ _ hk] at h1
          exact h1
        have eL : extTraverse H flags hashes n h (pos * 2)
            ⟨st.bitsUsed + 1, st.hashUsed, st.matched, st.indexes, st.failed⟩ =
            (buildHash H n leaves h (pos * 2),
             ⟨st.bitsUsed + 1 + L.1.length, st.hashUsed + L.2.length,
              st.matched ++ matchedH leaves mvec (pos * 2 * 2 ^ h)
                (min ((pos * 2 + 1) * 2 ^ h) n),
              st.indexes ++ matchedI mvec (pos * 2 * 2 ^ h)
                (min ((pos * 2 + 1) * 2 ^ h) n),
              false⟩) := by
          exact ih (pos * 2)
            ⟨st.bitsUsed + 1, st.hashUsed, st.matched, st.indexes, st.failed⟩
            (mwidth_child n h pos hpos)
            (fun k hk => hbL k hk)
            (by show st.bitsUsed + 1 + L.1.length ≤ flags.length * 8; omega)
            (fun k hk => hhL k hk)
            (by show st.hashUsed + L.2.length ≤ hashes.length; omega)
            hndL hfail
        -- right-child stream hypotheses
        have hbR : ∀ k, k < R.1.length →
            getFlagBit flags (st.bitsUsed + 1 + L.1.length + k) =
              (if R.1.getD k false then 1 else 0) := by
          intro k hk
          have h1 := hb (1 + L.1.length + k) (by omega)
          have e : st.bitsUsed + (1 + L.1.length + k) =
              st.bitsUsed + 1 + L.1.length + k := by omega
          have e2 : (1 : Nat) + L.1.length + k = (L.1.length + k) + 1 := by omega
          rw [e, e2, List.getD_cons_succ,
            List.getD_append_right _ _ _ _ (by omega)] at h1
          rw [show L.1.length + k - L.1.length = k from by omega] at h1
          exact h1
        have hhR : ∀ k, k < R.2.length →
            hashes.getD (st.hashUsed + L.2.length + k) [] = R.2.getD k [] := by
          intro k hk
          have h1 := hh (L.2.length + k) (by omega)
          have e : st.hashUsed + (L.2.length + k) =
              st.hashUsed + L.2.length + k := by omega
          rw [e, List.getD_append_right _ _ _ _ (by omega)] at h1
          rw [show L.2.length + k - L.2.length = k from by omega] at h1
          exact h1
        have eR : extTraverse H flags hashes n h (pos * 2 + 1)
            ⟨st.bitsUsed + 1 + L.1.length, st.hashUsed + L.2.length,
             st.matched ++ matchedH leaves mvec (pos * 2 * 2 ^ h)
               (min ((pos * 2 + 1) * 2 ^ h) n),
             st.indexes ++ matchedI mvec (pos * 2 * 2 ^ h)
               (min ((pos * 2 + 1) * 2 ^ h) n),
             false⟩ =
            (buildHash H n leaves h (pos * 2 + 1),
             ⟨st.bitsUsed + 1 + L.1.length + R.1.length,
              st.hashUsed + L.2.length + R.2.length,
              (st.matched ++ matchedH leaves mvec (pos * 2 * 2 ^ h)
                (min ((pos * 2 + 1) * 2 ^ h) n)) ++
                matchedH leaves mvec ((pos * 2 + 1) * 2 ^ h)
                  (min ((pos * 2 + 1 + 1) * 2 ^ h) n),
              (st.indexes ++ matchedI mvec (pos * 2 * 2 ^ h)
                (min ((pos * 2 + 1) * 2 ^ h) n)) ++
                matchedI mvec ((pos * 2 + 1) * 2 ^ h)
                  (min ((pos * 2 + 1 + 1) * 2 ^ h) n),
              false⟩) := by
          exact ih (pos * 2 + 1)
            ⟨st.bitsUsed + 1 + L.1.length, st.hashUsed + L.2.length, _, _, false⟩
            hr
            (fun k hk => hbR k hk)
            (by show st.bitsUsed + 1 + L.1.length + R.1.length ≤
              flags.length * 8; omega)
            (fun k hk => hhR k hk)
            (by show st.hashUsed + L.2.length + R.2.length ≤ hashes.length; omega)
            hndR rfl
        -- interval bookkeeping
        have hmid : (pos * 2 + 1) * 2 ^ h < n := (lt_mwidth_iff n h (pos * 2 + 1)).mp hr
        have e3 : (pos * 2 + 1) * 2 ^ h = pos * 2 * 2 ^ h + 2 ^ h := by ring
        have e4 : (pos * 2 + 2) * 2 ^ h = (pos * 2 + 1) * 2 ^ h + 2 ^ h := by ring
        have e_lo : pos * 2 ^ (h + 1) = pos * 2 * 2 ^ h := by ring
        have e_hi : (pos + 1) * 2 ^ (h + 1) = (pos * 2 + 2) * 2 ^ h := by ring
        have hsplitH : matchedH leaves mvec (pos * 2 ^ (h + 1))
            (min ((pos + 1) * 2 ^ (h + 1)) n) =
            matchedH leaves mvec (pos * 2 * 2 ^ h)
              (min ((pos * 2 + 1) * 2 ^ h) n) ++
            matchedH leaves mvec ((pos * 2 + 1) * 2 ^ h)
              (min ((pos * 2 + 1 + 1) * 2 ^ h) n) := by
          rw [e_lo, e_hi]
          rw [show min ((pos * 2 + 1) * 2 ^ h) n = (pos * 2 + 1) * 2 ^ h from
            by omega]
          rw [show (pos * 2 + 1 + 1) * 2 ^ h = (pos * 2 + 2) * 2 ^ h from
            by ring]
          have hle1 : pos * 2 * 2 ^ h ≤ (pos * 2 + 1) * 2 ^ h :=
            Nat.mul_le_mul_right _ (by omega)
          have hle2 : (pos * 2 + 1) * 2 ^ h ≤ min ((pos * 2 + 2) * 2 ^ h) n :=
            le_min (Nat.mul_le_mul_right _ (by omega)) hmid.le
          exact matchedH_append leaves mvec _ _ _ hle1 hle2
        have hsplitI : matchedI mvec (pos * 2 ^ (h + 1))
            (min ((pos + 1) * 2 ^ (h + 1)) n) =
            matchedI mvec (pos * 2 * 2 ^ h)
              (min ((pos * 2 + 1) * 2 ^ h) n) ++
            matchedI mvec ((pos * 2 + 1) * 2 ^ h)
              (min ((pos * 2 + 1 + 1) * 2 ^ h) n) := by
          rw [e_lo, e_hi]
          rw [show min ((pos * 2 + 1) * 2 ^ h) n = (pos * 2 + 1) * 2 ^ h from
            by omega]
          rw [show (pos * 2 + 1 + 1) * 2 ^ h = (pos * 2 + 2) * 2 ^ h from
            by ring]
          have hle1 : pos * 2 * 2 ^ h ≤ (pos * 2 + 1) * 2 ^ h :=
            Nat.mul_le_mul_right _ (by omega)
          have hle2 : (pos * 2 + 1) * 2 ^ h ≤ min ((pos * 2 + 2) * 2 ^ h) n :=
            le_min (Nat.mul_le_mul_right _ (by omega)) hmid.le
          exact matchedI_append mvec _ _ _ hle1 hle2
        -- assemble
        rw [hBT]
        simp only [extTraverse]
        rw [if_neg (by omega)]
        have hb0 := hb 0 (by omega)
        simp only [Nat.add_zero, List.getD_cons_zero] at hb0
        simp only [hb0]
        rw [if_neg (by simp)]
        rw [eL]
        rw [if_pos hr]
        rw [eR]
        rw [if_neg (Ne.symm hne)]
        have hbh : buildHash H n leaves (h + 1) pos =
            H (buildHash H n leaves h (pos * 2) ++
               buildHash H n leaves h (pos * 2 + 1)) := by
          simp [buildHash, hr]
        rw [hbh, hsplitH, hsplitI]
        simp only [List.length_cons, List.length_append, List.append_assoc]
        refine congrArg _ ?_
        congr 1 <;> first | rfl | omega
      · -- right child absent: duplicate the left branch
        have hBT : buildTraverse H n leaves mvec (h + 1) pos =
            (true :: L.1, L.2) := by
          rw [hLdef]
          simp [buildTraverse, hPt, hr]
        simp only [hBT, List.length_cons] at hb hbb hh hhb
        have hnd2 : noDupTree H n leaves (h + 1) pos =
            noDupTree H n leaves h (pos * 2) := by
          simp [noDupTree, hr]
        rw [hnd2] at hnd
        have hbL : ∀ k, k < L.1.length →
            getFlagBit flags (st.bitsUsed + 1 + k) =
              (if L.1.getD k false then 1 else 0) := by
          intro k hk
          have h1 := hb (k + 1) (by omega)
          have e : st.bitsUsed + (k + 1) = st.bitsUsed + 1 + k := by omega
          rw [e, List.getD_cons_succ] at h1
          exact h1
        have eL : extTraverse H flags hashes n h (pos * 2)
            ⟨st.bitsUsed + 1, st.hashUsed, st.matched, st.indexes, st.failed⟩ =
            (buildHash H n leaves h (pos * 2),
             ⟨st.bitsUsed + 1 + L.1.length, st.hashUsed + L.2.length,
              st.matched ++ matchedH leaves mvec (pos * 2 * 2 ^ h)
                (min ((pos * 2 + 1) * 2 ^ h) n),
              st.indexes ++ matchedI mvec (pos * 2 * 2 ^ h)
                (min ((pos * 2 + 1) * 2 ^ h) n),
              false⟩) := by
          exact ih (pos * 2)
            ⟨st.bitsUsed + 1, st.hashUsed, st.matched, st.indexes, st.failed⟩
            (mwidth_child n h pos hpos)
            (fun k hk => hbL k hk)
            (by show st.bitsUsed + 1 + L.1.length ≤ flags.length * 8; omega)
            (fun k hk => hh k hk)
            (by show st.hashUsed + L.2.length ≤ hashes.length; omega)
            hnd hfail
        have hnmid : n ≤ (pos * 2 + 1) * 2 ^ h := by
          by_contra hc
          exact hr ((lt_mwidth_iff n h (pos * 2 + 1)).mpr (by omega))
        have e_lo : pos * 2 ^ (h + 1) = pos * 2 * 2 ^ h := by ring
        have e_hi : (pos + 1) * 2 ^ (h + 1) = (pos * 2 + 2) * 2 ^ h := by ring
        have e4 : (pos * 2 + 2) * 2 ^ h = (pos * 2 + 1) * 2 ^ h + 2 ^ h := by ring
        have hsameH : matchedH leaves mvec (pos * 2 ^ (h + 1))
            (min ((pos + 1) * 2 ^ (h + 1)) n) =
            matchedH leaves mvec (pos * 2 * 2 ^ h)
              (min ((pos * 2 + 1) * 2 ^ h) n) := by
          rw [e_lo, e_hi]
          rw [min_eq_right (le_trans hnmid (Nat.mul_le_mul_right _ (by omega))),
            min_eq_right hnmid]
        have hsameI : matchedI mvec (pos * 2 ^ (h + 1))
            (min ((pos + 1) * 2 ^ (h + 1)) n) =
            matchedI mvec (pos * 2 * 2 ^ h)
              (min ((pos * 2 + 1) * 2 ^ h) n) := by
          rw [e_lo, e_hi]
          rw [min_eq_right (le_trans hnmid (Nat.mul_le_mul_right _ (by omega))),
            min_eq_right hnmid]
        rw [hBT]
        simp only [extTraverse]
        rw [if_neg (by omega)]
        have hb0 := hb 0 (by omega)
        simp only [Nat.add_zero, List.getD_cons_zero] at hb0
        simp only [hb0]
        rw [if_neg (by simp)]
        rw [eL]
        rw [if_neg hr]
        have hbh : buildHash H n leaves (h + 1) pos =
            H (buildHash H n leaves h (pos * 2) ++
               buildHash H n leaves h (pos * 2)) := by
          simp [buildHash, hr]
        rw [hbh, hsameH, hsameI]
        simp only [List.length_cons]
        refine congrArg _ ?_
        congr 1 <;> first | rfl | omega

theorem bt_hash_le_bits (H : List Nat → List Nat) (leaves : List (List Nat))
    (mvec : List Bool) (n : Nat) :
    ∀ h pos, (buildTraverse H n leaves mvec h pos).2.length ≤
      (buildTraverse H n leaves mvec h pos).1.length := by
  intro h
  induction h with
  | zero => intro pos; simp [buildTraverse]
  | succ h ih =>
    intro pos
    by_cases hP : anyMatch mvec n (h + 1) pos = false
    · have hBT : buildTraverse H n leaves mvec (h + 1) pos =
          ([false], [buildHash H n leaves (h + 1) pos]) := by
        simp [buildTraverse, hP]
      rw [hBT]
      simp
    · have hPt : anyMatch mvec n (h + 1) pos = true := by
        cases hA : anyMatch mvec n (h + 1) pos
        · exact absurd hA hP
        · rfl
      by_cases hr : pos * 2 + 1 < mwidth n h
      · have hBT : buildTraverse H n leaves mvec (h + 1) pos =
            (true :: ((buildTraverse H n leaves mvec h (pos * 2)).1 ++
              (buildTraverse H n leaves mvec h (pos * 2 + 1)).1),
             (buildTraverse H n leaves mvec h (pos * 2)).2 ++
              (buildTraverse H n leaves mvec h (pos * 2 + 1)).2) := by
          simp [buildTraverse, hPt, hr]
        have h1 := ih (pos * 2)
        have h2 := ih (pos * 2 + 1)
        rw [hBT]
        simp only [List.length_cons, List.length_append]
        omega
      · have hBT : buildTraverse H n leaves mvec (h + 1) pos =
            (true :: ((buildTraverse H n leaves mvec h (pos * 2)).1 ++ []),
             (buildTraverse H n leaves mvec h (pos * 2)).2 ++ []) := by
          simp [buildTraverse, hPt, hr]
        have h1 := ih (pos * 2)
        rw [hBT]
        simp only [List.length_cons, List.length_append, List.length_nil]
        omega

theorem bt_hash_le_count (H : List Nat → List Nat) (leaves : List (List Nat))
    (mvec : List Bool) (n : Nat) :
    ∀ h pos, pos < mwidth n h →
      (buildTraverse H n leaves mvec h pos).2.length ≤
        min ((pos + 1) * 2 ^ h) n - pos * 2 ^ h := by
  intro h
  induction h with
  | zero =>
    intro pos hpos
    rw [mwidth_zero] at hpos
    simp only [buildTraverse, List.length_cons, List.length_nil, pow_zero,
      mul_one]
    omega
  | succ h ih =>
    intro pos hpos
    have hlo : pos * 2 ^ (h + 1) < n := (lt_mwidth_iff n (h + 1) pos).mp hpos
    have e_hi : (pos + 1) * 2 ^ (h + 1) = pos * 2 ^ (h + 1) + 2 ^ (h + 1) := by
      ring
    have hp2 : 0 < 2 ^ (h + 1) := by positivity
    have e_lo : pos * 2 ^ (h + 1) = pos * 2 * 2 ^ h := by ring
    have e3 : (pos * 2 + 1) * 2 ^ h = pos * 2 * 2 ^ h + 2 ^ h := by ring
    have e4 : (pos * 2 + 2) * 2 ^ h = (pos * 2 + 1) * 2 ^ h + 2 ^ h := by ring
    have e_p : (2 : Nat) ^ (h + 1) = 2 ^ h + 2 ^ h := by ring
    by_cases hP : anyMatch mvec n (h + 1) pos = false
    · have hBT : buildTraverse H n leaves mvec (h + 1) pos =
          ([false], [buildHash H n leaves (h + 1) pos]) := by
        simp [buildTraverse, hP]
      rw [hBT]
      simp only [List.length_cons, List.length_nil]
      omega
    · have hPt : anyMatch mvec n (h + 1) pos = true := by
        cases hA : anyMatch mvec n (h + 1) pos
        · exact absurd hA hP
        · rfl
      by_cases hr : pos * 2 + 1 < mwidth n h
      · have hmid : (pos * 2 + 1) * 2 ^ h < n :=
          (lt_mwidth_iff n h (pos * 2 + 1)).mp hr
        have hBT : buildTraverse H n leaves mvec (h + 1) pos =
            (true :: ((buildTraverse H n leaves mvec h (pos * 2)).1 ++
              (buildTraverse H n leaves mvec h (pos * 2 + 1)).1),
             (buildTraverse H n leaves mvec h (pos * 2)).2 ++
              (buildTraverse H n leaves mvec h (pos * 2 + 1)).2) := by
          simp [buildTraverse, hPt, hr]
        have h1 := ih (pos * 2) (mwidth_child n h pos hpos)
        have h2 := ih (pos * 2 + 1) hr
        have e5 : (pos * 2 + 1 + 1) * 2 ^ h = (pos * 2 + 2) * 2 ^ h := by ring
        rw [e5] at h2
        rw [hBT]
        simp only [List.length_append]
        omega
      · have hnmid : n ≤ (pos * 2 + 1) * 2 ^ h := by
          by_contra hc
          exact hr ((lt_mwidth_iff n h (pos * 2 + 1)).mpr (by omega))
        have hBT : buildTraverse H n leaves mvec (h + 1) pos =
            (true :: ((buildTraverse H n leaves mvec h (pos * 2)).1 ++ []),
             (buildTraverse H n leaves mvec h (pos * 2)).2 ++ []) := by
          simp [buildTraverse, hPt, hr]
        have h1 := ih (pos * 2) (mwidth_child n h pos hpos)
        rw [hBT]
        simp only [List.length_append, List.length_nil]
        omega

/-- C3. For every block with N ≥ 1 transactions (a real block satisfies
the `MAX_SIZE / 60` transaction-count ceiling) and every match vector,
as long as no two sibling subtree hashes collide (which collision
resistance of the double-SHA256 guarantees for a real block),
`extractTree` on the output of `fromMatches` succeeds, recovers exactly
the matched transaction hashes with their original leaf positions, and
recomputes the block's original merkle root. -/
theorem c3_merkle_roundtrip (H : List Nat → List Nat)
    (leaves : List (List Nat)) (mvec : List Bool)
    (hN : 1 ≤ leaves.length) (hcap : leaves.length ≤ BLOCK_MAX_SIZE / 60)
    (hnd : noDupTree H leaves.length leaves
      (treeHeight leaves.length) 0 = true) :
    extractTree H (fromMatches H leaves mvec) =
      some { root := merkleRootOf H leaves,
             matched := matchedHashes leaves mvec,
             indexes := matchedIndexes leaves mvec,
             map := (matchedHashes leaves mvec).zip
               (matchedIndexes leaves mvec) } := by
  simp only [extractTree, fromMatches]
  set n := leaves.length with hn
  set ht := treeHeight n with hht
  set B := (buildTraverse H n leaves mvec ht 0).1 with hB
  set Hs := (buildTraverse H n leaves mvec ht 0).2 with hHs
  have hroot : (0 : Nat) < mwidth n ht := mwidth_pos n ht (by omega)
  have hmain := ext_build H leaves mvec (packBits B) Hs n ht 0
    ⟨0, 0, [], [], false⟩ hroot
    (by
      intro k hk
      simp only [Nat.zero_add]
      exact getFlagBit_packBits B k)
    (by
      rw [← hB]
      simp only [Nat.zero_add, packBits_length]
      omega)
    (by
      intro k hk
      simp only [Nat.zero_add])
    (by simp)
    hnd rfl
  have hhle := bt_hash_le_count H leaves mvec n ht 0 hroot
  have hhlb := bt_hash_le_bits H leaves mvec n ht 0
  rw [← hHs] at hhle
  rw [← hHs, ← hB] at hhlb
  have h2n : n ≤ 2 ^ ht := treeHeight_le n
  rw [if_neg (by omega)]
  rw [if_neg (by
    simp only [not_lt]
    exact hcap)]
  rw [if_neg (by
    simp only [not_lt]
    omega)]
  rw [if_neg (by
    simp only [not_lt, packBits_length]
    omega)]
  rw [hmain]
  simp only []
  rw [if_neg (by simp)]
  rw [if_neg (by
    rw [← hB]
    simp only [Nat.zero_add, packBits_length]
    omega)]
  rw [if_neg (by
    rw [← hHs]
    simp)]
  have hmin : min ((0 + 1) * 2 ^ ht) n = n := by
    simp only [Nat.zero_add, one_mul]
    omega
  have hzero : (0 : Nat) * 2 ^ ht = 0 := by ring
  simp only [hmin, hzero]
  rfl

/-- C3 (witness): a 3-transaction block with the first and third
transactions matched round-trips through fromMatches/extractTree. -/
theorem c3_witness :
    extractTree (fun l => [l.foldl (fun a b => 31 * a + b + 1) 7])
      (fromMatches (fun l => [l.foldl (fun a b => 31 * a + b + 1) 7])
        [[1], [2], [3]] [true, false, true]) =
      some { root := merkleRootOf
               (fun l => [l.foldl (fun a b => 31 * a + b + 1) 7])
               [[1], [2], [3]],
             matched := matchedHashes [[1], [2], [3]] [true, false, true],
             indexes := matchedIndexes [[1], [2], [3]] [true, false, true],
             map := (matchedHashes [[1], [2], [3]] [true, false, true]).zip
               (matchedIndexes [[1], [2], [3]] [true, false, true]) } :=
  c3_merkle_roundtrip (fun l => [l.foldl (fun a b => 31 * a + b + 1) 7])
    [[1], [2], [3]] [true, false, true]
    (by decide) (by decide) (by decide)

/-- Once the failure flag is set, the extract traversal never clears it. -/
theorem ext_failed_mono (H : List Nat → List Nat) (flags : List Nat)
    (hashes : List (List Nat)) (n : Nat) :
    ∀ h pos st, st.failed = true →
      (extTraverse H flags hashes n h pos st).2.failed = true := by
  intro h
  induction h with
  | zero =>
    intro pos st hf
    simp only [extTraverse]
    split_ifs <;> simp [hf]
  | succ h ih =>
    intro pos st hf
    simp only [extTraverse]
    split_ifs with h1 h2 h3 h4 h5 <;> try simp [hf]
    · exact ih _ _ (ih _ _ (by simp [hf]))
    · exact ih _ _ (by simp [hf])

/-- The dup-detection companion of the extract traversal: true iff the
traversal, as run by `extractTree` over these flags and hashes, reaches
an interior node whose two separately-reconstructed sibling subtree
hashes are bit-for-bit identical. -/
def dupFound (H : List Nat → List Nat) (flags : List Nat)
    (hashes : List (List Nat)) (totalTX : Nat) :
    Nat → Nat → ExtState → Bool
  | 0, _, _ => false
  | h + 1, pos, st =>
    if flags.length * 8 ≤ st.bitsUsed then false
    else
      let parent := getFlagBit flags st.bitsUsed
      let st := { st with bitsUsed := st.bitsUsed + 1 }
      if parent = 0 then false
      else
        let out₁ := extTraverse H flags hashes totalTX h (pos * 2) st
        if pos * 2 + 1 < mwidth totalTX h then
          let out₂ := extTraverse H flags hashes totalTX h (pos * 2 + 1) out₁.2
          (out₂.1 == out₁.1)
            || dupFound H flags hashes totalTX h (pos * 2) st
            || dupFound H flags hashes totalTX h (pos * 2 + 1) out₁.2
        else dupFound H flags hashes totalTX h (pos * 2) st

theorem dup_implies_failed (H : List Nat → List Nat) (flags : List Nat)
    (hashes : List (List Nat)) (n : Nat) :
    ∀ h pos st, dupFound H flags hashes n h pos st = true →
      (extTraverse H flags hashes n h pos st).2.failed = true := by
  intro h
  induction h with
  | zero =>
    intro pos st hdup
    simp [dupFound] at hdup
  | succ h ih =>
    intro pos st hdup
    simp only [dupFound] at hdup
    simp only [extTraverse]
    by_cases h1 : flags.length * 8 ≤ st.bitsUsed
    · rw [if_pos h1] at hdup
      exact absurd hdup (by simp)
    · rw [if_neg h1] at hdup ⊢
      by_cases h2 : getFlagBit flags st.bitsUsed = 0
      · rw [if_pos h2] at hdup
        exact absurd hdup (by simp)
      · rw [if_neg h2] at hdup ⊢
        by_cases h3 : pos * 2 + 1 < mwidth n h
        · rw [if_pos h3] at hdup ⊢
          simp only [Bool.or_eq_true, beq_iff_eq] at hdup
          rcases hdup with (heq | hdL) | hdR
          · rw [if_pos heq]
          · have hf1 := ih (pos * 2) _ hdL
            have hf2 := ext_failed_mono H flags hashes n h (pos * 2 + 1) _ hf1
            split_ifs <;> simp [hf2]
          · have hf2 := ih (pos * 2 + 1) _ hdR
            split_ifs <;> simp [hf2]
        · rw [if_neg h3] at hdup ⊢
          exact ih (pos * 2) _ hdup

/-- Whether the serialized partial tree contains a node whose two sibling
subtree hashes are identical (as observed by the extract traversal). -/
def hasDupSibling (H : List Nat → List Nat) (mb : MerkleData) : Bool :=
  dupFound H mb.flags mb.hashes mb.totalTX (treeHeight mb.totalTX) 0
    ⟨0, 0, [], [], false⟩

/-- C4. If some interior node of the serialized partial merkle tree has two
byte-for-byte identical sibling subtree hashes, `extractTree` rejects the
tree outright — it returns no partial result, regardless of what root the
traversal recomputes (the root is never even compared here). -/
theorem c4_dup_sibling_rejected (H : List Nat → List Nat) (mb : MerkleData)
    (hdup : hasDupSibling H mb = true) :
    extractTree H mb = none := by
  have hf := dup_implies_failed H mb.flags mb.hashes mb.totalTX
    (treeHeight mb.totalTX) 0 ⟨0, 0, [], [], false⟩ hdup
  unfold extractTree
  split_ifs <;> first | rfl | simp_all

/-- C4 (witness): a 2-transaction partial tree whose two leaf hashes are
identical is rejected even though its recomputed root is well-defined. -/
theorem c4_witness :
    extractTree (fun l => [l.foldl (fun a b => 31 * a + b + 1) 7])
      ⟨2, [[1], [1]], [7]⟩ = none :=
  c4_dup_sibling_rejected (fun l => [l.foldl (fun a b => 31 * a + b + 1) 7])
    ⟨2, [[1], [1]], [7]⟩ (by decide)

/-!
## BIP151 encrypted transport (part_001, bip151.js)

External crypto capabilities are parameters: `ks key iv i` is byte `i` of
the ChaCha20 keystream for a key/nonce pair, `polyDerive key iv` is the
per-nonce Poly1305 subkey the AEAD derives at (re)initialization, and
`macFn polyKey data` is the 16-byte Poly1305 tag over the authenticated
data (the length padding of the real construction is folded into
`macFn`).  `H` is `crypto.hash256` and the hkdf functions are
`crypto.hkdfExtract` / `crypto.hkdfExpand`.
-/

def HKDF_SALT : List Nat := [98, 105, 116, 99, 111, 105, 110, 101, 99, 100, 104]

def INFO_KEY1 : List Nat := [66, 105, 116, 99, 111, 105, 110, 75, 49]

def INFO_KEY2 : List Nat := [66, 105, 116, 99, 111, 105, 110, 75, 50]

def INFO_SID : List Nat :=
  [66, 105, 116, 99, 111, 105, 110, 83, 101, 115, 115, 105, 111, 110, 73, 68]

def HIGH_WATERMARK : Nat := 1024 * 2 ^ 20

/-- Modelled from the spec: `constants.MAX_MESSAGE` (protocol/constants.js
is not under src/); parse accepts sizes up to three batched max-size
messages ("12mb" per the source comment).  Only the existence of the
bound matters to the claims. -/
def MAX_MESSAGE : Nat := 4000000

/-- ChaCha20 stream-cipher state: key, 8-byte nonce, and the keystream
position (reset whenever the cipher is (re)initialized with a nonce). -/
structure ChaCha20 where
  key : List Nat
  iv : List Nat
  pos : Nat
deriving Repr, DecidableEq

/-- `chacha.init(key, iv)`: a null key keeps the current key; setting the
nonce restarts the keystream. -/
def ChaCha20.initSt (c : ChaCha20) (key : Option (List Nat)) (iv : List Nat) :
    ChaCha20 :=
  ⟨key.getD c.key, iv, 0⟩

/-- XOR data with the keystream, advancing the stream position. -/
def ChaCha20.encrypt (ks : List Nat → List Nat → Nat → Nat) (c : ChaCha20)
    (data : List Nat) : List Nat × ChaCha20 :=
  (data.mapIdx fun i b => b ^^^ ks c.key c.iv (c.pos + i),
   { c with pos := c.pos + data.length })

/-- ChaCha20-Poly1305 AEAD state: the cipher, the per-nonce Poly1305
subkey, and the accumulated authenticated bytes. -/
structure AEAD where
  chacha20 : ChaCha20
  polyKey : List Nat
  macAcc : List Nat
deriving Repr, DecidableEq

def AEAD.initSt (polyDerive : List Nat → List Nat → List Nat) (a : AEAD)
    (key : Option (List Nat)) (iv : List Nat) : AEAD :=
  let cc := a.chacha20.initSt key iv
  ⟨cc, polyDerive cc.key iv, []⟩

/-- Update the MAC only. -/
def AEAD.auth (a : AEAD) (data : List Nat) : AEAD :=
  { a with macAcc := a.macAcc ++ data }

/-- Encrypt and authenticate the ciphertext. -/
def AEAD.encrypt (ks : List Nat → List Nat → Nat → Nat) (a : AEAD)
    (data : List Nat) : List Nat × AEAD :=
  let out := (a.chacha20.encrypt ks data).1
  (out, { a with chacha20 := (a.chacha20.encrypt ks data).2,
                 macAcc := a.macAcc ++ out })

/-- Finalize the MAC. -/
def AEAD.finish (macFn : List Nat → List Nat → List Nat) (a : AEAD) :
    List Nat :=
  macFn a.polyKey a.macAcc

/-- A BIP151 input or output stream (bip151.js BIP151Stream). -/
structure BIP151Stream where
  cipher : Nat
  privateKey : List Nat
  publicKey : Option (List Nat)
  secret : Option (List Nat)
  prk : Option (List Nat)
  k1 : List Nat
  k2 : List Nat
  sid : List Nat
  tag : Option (List Nat)
  seq : Nat
  iv : List Nat
  processed : Nat
  lastRekey : Nat
  chacha : ChaCha20
  aead : AEAD
deriving Repr, DecidableEq

/-- Write the low 32 bits of the sequence number into the nonce
(`this.iv.writeUInt32LE(this.seq, 0, true)`). -/
def BIP151Stream.update (s : BIP151Stream) : BIP151Stream :=
  { s with iv := bufWrite s.iv 0 (natLE 4 s.seq) }

/-- Initialize the stream with the peer's public key: ECDH secret, HKDF
key schedule (k1, k2, session ID), zero sequence number, fresh ciphers. -/
def BIP151Stream.init (hkdfExtract : List Nat → List Nat → List Nat)
    (hkdfExpand : List Nat → List Nat → Nat → List Nat)
    (ecdh : List Nat → List Nat → List Nat)
    (polyDerive : List Nat → List Nat → List Nat) (now : Nat)
    (s : BIP151Stream) (publicKey : List Nat) : BIP151Stream :=
  let secret := ecdh publicKey s.privateKey
  let prk := hkdfExtract (secret ++ [s.cipher % 256]) HKDF_SALT
  let k1 := hkdfExpand prk INFO_KEY1 32
  let k2 := hkdfExpand prk INFO_KEY2 32
  let sid := hkdfExpand prk INFO_SID 32
  let s := { s with publicKey := some publicKey, secret := some secret,
                    prk := some prk, k1 := k1, k2 := k2, sid := sid, seq := 0 }
  let s := s.update
  { s with chacha := s.chacha.initSt (some k1) s.iv,
           aead := s.aead.initSt polyDerive (some k2) s.iv,
           lastRekey := now }

/-- Add the buffer size to `processed` and check the rekey clock (more
than 10 seconds since the last rekey, or the byte high-watermark). -/
def BIP151Stream.shouldRekey (now : Nat) (s : BIP151Stream)
    (data : List Nat) : Bool × BIP151Stream :=
  let s := { s with processed := s.processed + data.length }
  if s.lastRekey + 10 ≤ now ∨ HIGH_WATERMARK ≤ s.processed then
    (true, { s with lastRekey := now, processed := 0 })
  else (false, s)

/-- Generate new cipher keys with `key = HASH256(sid || key)` (or install
the supplied replacement keys) and reinitialize both ciphers with the
current nonce.  All state is reinitialized aside from the sequence
number.  The source writes `sid` and the old key into a shared 64-byte
buffer before hashing. -/
def BIP151Stream.rekey (H : List Nat → List Nat)
    (polyDerive : List Nat → List Nat → List Nat) (s : BIP151Stream)
    (nk1 nk2 : Option (List Nat)) : Except String BIP151Stream :=
  if s.prk.isNone then .error "Cannot rekey before initialization."
  else
    match nk1 with
    | none =>
      let seed := bufWrite (bufWrite (List.replicate 64 0) 0 s.sid) 32 s.k1
      let k1 := H seed
      let seed2 := bufWrite seed 32 s.k2
      let k2 := H seed2
      .ok { s with k1 := k1, k2 := k2,
                   chacha := s.chacha.initSt (some k1) s.iv,
                   aead := s.aead.initSt polyDerive (some k2) s.iv }
    | some k1 =>
      let k2 := nk2.getD s.k2
      .ok { s with k1 := k1, k2 := k2,
                   chacha := s.chacha.initSt (some k1) s.iv,
                   aead := s.aead.initSt polyDerive (some k2) s.iv }

/-- Increment the packet sequence number (wrapping at 2^32, a la openssh)
and update the nonce without reinitializing cipher keys. -/
def BIP151Stream.sequence (polyDerive : List Nat → List Nat → List Nat)
    (s : BIP151Stream) : BIP151Stream :=
  let seq := if s.seq + 1 = 0x100000000 then 0 else s.seq + 1
  let s := { s with seq := seq }
  let s := s.update
  { s with chacha := s.chacha.initSt none s.iv,
           aead := s.aead.initSt polyDerive none s.iv }

/-- Encrypt a payload size with k1. -/
def BIP151Stream.encryptSize (ks : List Nat → List Nat → Nat → Nat)
    (s : BIP151Stream) (size : Nat) : List Nat × BIP151Stream :=
  let out := s.chacha.encrypt ks (natLE 4 size)
  (out.1, { s with chacha := out.2 })

/-- Decrypt a payload size with k1 (the stream cipher runs over the
4-byte field in place; the decoded value is its little-endian u32). -/
def BIP151Stream.decryptSize (ks : List Nat → List Nat → Nat → Nat)
    (s : BIP151Stream) (data : List Nat) : Nat × BIP151Stream :=
  let out := s.chacha.encrypt ks data
  (leDecode (out.1.take 4), { s with chacha := out.2 })

/-- Encrypt payload with the AEAD (updates cipher and mac). -/
def BIP151Stream.encrypt (ks : List Nat → List Nat → Nat → Nat)
    (s : BIP151Stream) (data : List Nat) : List Nat × BIP151Stream :=
  let out := s.aead.encrypt ks data
  (out.1, { s with aead := out.2 })

/-- Decrypt payload (updates the AEAD's cipher only, not the mac). -/
def BIP151Stream.decrypt (ks : List Nat → List Nat → Nat → Nat)
    (s : BIP151Stream) (data : List Nat) : List Nat × BIP151Stream :=
  let out := s.aead.chacha20.encrypt ks data
  (out.1, { s with aead := { s.aead with chacha20 := out.2 } })

/-- Authenticate payload (updates the mac only). -/
def BIP151Stream.auth (s : BIP151Stream) (data : List Nat) : BIP151Stream :=
  { s with aead := s.aead.auth data }

/-- Finalize the AEAD and store the computed MAC. -/
def BIP151Stream.finish (macFn : List Nat → List Nat → List Nat)
    (s : BIP151Stream) : List Nat × BIP151Stream :=
  let t := s.aead.finish macFn
  (t, { s with tag := some t })

/-- Verify a tag against the stored mac (constant-time in the source). -/
def BIP151Stream.verify (s : BIP151Stream) (tag : List Nat) : Bool :=
  s.tag.getD [] == tag

/-- A BIP151 session: input and output streams, the four handshake flags,
and the framing state for the arbitrarily-chunked inbound byte stream
(the timeout/callback machinery and the optional BIP150 hook are host
async plumbing and are not part of the byte-level state modelled here). -/
structure BIP151 where
  input : BIP151Stream
  output : BIP151Stream
  initReceived : Bool
  ackReceived : Bool
  initSent : Bool
  ackSent : Bool
  handshake : Bool
  pending : List (List Nat)
  total : Nat
  waiting : Nat
  hasSize : Bool
deriving Repr, DecidableEq

/-- An observable emission of the session: a protocol error or a decoded
`(command, body)` packet event. -/
inductive BEvent where
  | badSize (size : Nat)
  | badTag (tag : List Nat)
  | badInner
  | packet (cmd : List Nat) (body : List Nat)
deriving Repr, DecidableEq

/-- The inner sub-message loop of `parse`: read a varstring command and a
u32-length-prefixed body per iteration until the payload is exhausted; a
reader failure emits one error and stops.  Each iteration consumes at
least one byte, so `payload.length + 1` fuel makes the loop total. -/
def parseInnerGo : Nat → BufferReader → List BEvent
  | 0, _ => []
  | fuel + 1, br =>
    if br.left = 0 then []
    else
      match br.readVarString 0 with
      | .error _ => [.badInner]
      | .ok (cmd, br₁) =>
        match br₁.readU32 with
        | .error _ => [.badInner]
        | .ok (n, br₂) =>
          match br₂.readBytes n with
          | .error _ => [.badInner]
          | .ok (body, br₃) => .packet cmd body :: parseInnerGo fuel br₃

def parseInner (payload : List Nat) : List BEvent :=
  parseInnerGo (payload.length + 1) (BufferReader.ofData payload)

/-- Parse one frame-sized chunk (`BIP151.prototype.parse`): first the
4-byte encrypted size prefix with its [6, 3·MAX_MESSAGE] sanity bound,
then the body+tag consumption — authenticate before decrypting, on a tag
mismatch still advance the sequence number and report the error without
emitting the payload, on success decrypt, advance, and emit the inner
`(command, body)` sub-messages. -/
def BIP151.parse (ks : List Nat → List Nat → Nat → Nat)
    (polyDerive : List Nat → List Nat → List Nat)
    (macFn : List Nat → List Nat → List Nat)
    (st : BIP151) (data : List Nat) : BIP151 × List BEvent :=
  if st.hasSize = false then
    let out := st.input.decryptSize ks data
    if out.1 < 6 ∨ MAX_MESSAGE * 3 < out.1 then
      ({ st with input := out.2, waiting := 4 }, [.badSize out.1])
    else
      ({ st with input := out.2, hasSize := true, waiting := out.1 + 16 }, [])
  else
    let payload := data.take (st.waiting - 16)
    let tag := (data.drop (st.waiting - 16)).take 16
    let input₁ := st.input.auth payload
    let fin := input₁.finish macFn
    if fin.2.verify tag = false then
      ({ st with hasSize := false, waiting := 4,
                 input := fin.2.sequence polyDerive }, [.badTag tag])
    else
      let dec := fin.2.decrypt ks payload
      ({ st with hasSize := false, waiting := 4,
                 input := dec.2.sequence polyDerive }, parseInner dec.1)

/-- Consume `size` bytes from the buffered chunk queue, exactly like the
three-way `read` of the source (slice the head, shift it, or loop-copy
across several chunks). -/
def readBufs : List (List Nat) → Nat → List Nat × List (List Nat)
  | [], _ => ([], [])
  | p :: ps, n =>
    if n = 0 then ([], p :: ps)
    else if p.length ≤ n then
      let out := readBufs ps (n - p.length)
      (p ++ out.1, out.2)
    else (p.take n, p.drop n :: ps)

/-- `BIP151.prototype.read`: consume `size` bytes; the source's
`assert(this.total >= size)` always holds at the call site because the
feed loop only reads under its `total >= waiting` guard. -/
def BIP151.read (st : BIP151) (size : Nat) : List Nat × BIP151 :=
  let out := readBufs st.pending size
  (out.1, { st with pending := out.2, total := st.total - out.1.length })

/-- The `while (this.total >= this.waiting)` loop of `feed`, with explicit
fuel.  Every iteration consumes `waiting ≥ 1` bytes, so `st.total` fuel
is always sufficient (feedLoop_fuel below makes this exact). -/
def BIP151.feedLoop (ks : List Nat → List Nat → Nat → Nat)
    (polyDerive : List Nat → List Nat → List Nat)
    (macFn : List Nat → List Nat → List Nat) :
    Nat → BIP151 → BIP151 × List BEvent
  | 0, st => (st, [])
  | fuel + 1, st =>
    if st.waiting ≤ st.total then
      let r := st.read st.waiting
      let p := BIP151.parse ks polyDerive macFn r.2 r.1
      let rest := BIP151.feedLoop ks polyDerive macFn fuel p.1
      (rest.1, p.2 ++ rest.2)
    else (st, [])

/-- Feed a ciphertext chunk to the input stream (`BIP151.prototype.feed`):
append it to the pending queue and drain whole frames. -/
def BIP151.feed (ks : List Nat → List Nat → Nat → Nat)
    (polyDerive : List Nat → List Nat → List Nat)
    (macFn : List Nat → List Nat → List Nat)
    (st : BIP151) (data : List Nat) : BIP151 × List BEvent :=
  let st₁ := { st with total := st.total + data.length,
                       pending := st.pending ++ [data] }
  BIP151.feedLoop ks polyDerive macFn st₁.total st₁

/-- One `feed()` call on an accumulated (state, events) pair. -/
def feedStep (ks : List Nat → List Nat → Nat → Nat)
    (polyDerive : List Nat → List Nat → List Nat)
    (macFn : List Nat → List Nat → List Nat)
    (acc : BIP151 × List BEvent) (c : List Nat) : BIP151 × List BEvent :=
  ((BIP151.feed ks polyDerive macFn acc.1 c).1,
   acc.2 ++ (BIP151.feed ks polyDerive macFn acc.1 c).2)

/-- Feed a list of chunks one `feed()` call at a time, concatenating the
emitted events. -/
def feedAll (ks : List Nat → List Nat → Nat → Nat)
    (polyDerive : List Nat → List Nat → List Nat)
    (macFn : List Nat → List Nat → List Nat)
    (st : BIP151) (chunks : List (List Nat)) : BIP151 × List BEvent :=
  chunks.foldl (feedStep ks polyDerive macFn) (st, [])

/-! ### C1 / C2: rekeying and tag-mismatch handling -/

theorem bufWrite_seed_fst (sid k1 : List Nat) (hsid : sid.length = 32)
    (hk1 : k1.length = 32) :
    bufWrite (bufWrite (List.replicate 64 0) 0 sid) 32 k1 = sid ++ k1 := by
  have h0 : bufWrite (List.replicate 64 0) 0 sid = sid ++ List.replicate 32 0 := by
    simp only [bufWrite, List.take_zero, List.nil_append, Nat.zero_add,
      List.length_replicate, Nat.sub_zero]
    rw [List.take_of_length_le (by omega), hsid]
    rfl
  rw [h0]
  have h1 := bufWrite_of_fit sid (List.replicate 32 0) k1 (by simp [hk1])
  rw [hsid] at h1
  rw [h1, List.drop_eq_nil_of_le (by simp [hk1]), List.append_nil]

theorem bufWrite_seed_snd (sid mid k : List Nat) (hsid : sid.length = 32)
    (hmid : mid.length = 32) (hk : k.length = 32) :
    bufWrite (sid ++ mid) 32 k = sid ++ k := by
  have h1 := bufWrite_of_fit sid mid k (by omega)
  rw [hsid] at h1
  rw [h1, List.drop_eq_nil_of_le (by omega), List.append_nil]

/-- **C1**: for an initialized stream (prk set, 32-byte sid/k1/k2), rekey
with no replacement keys derives `k1' = HASH256(sid ‖ k1)` and
`k2' = HASH256(sid ‖ k2)`, leaves sid, seq and the nonce unchanged, and
reinitializes both ciphers with the new keys and the current nonce. -/
theorem c1_rekey_derivation (H : List Nat → List Nat)
    (polyDerive : List Nat → List Nat → List Nat)
    (s : BIP151Stream) (p : List Nat) (hinit : s.prk = some p)
    (hsid : s.sid.length = 32) (hk1 : s.k1.length = 32)
    (hk2 : s.k2.length = 32) :
    ∃ s', BIP151Stream.rekey H polyDerive s none none = .ok s' ∧
      s'.k1 = H (s.sid ++ s.k1) ∧
      s'.k2 = H (s.sid ++ s.k2) ∧
      s'.sid = s.sid ∧ s'.seq = s.seq ∧ s'.iv = s.iv ∧ s'.prk = s.prk ∧
      s'.chacha = s.chacha.initSt (some (H (s.sid ++ s.k1))) s.iv ∧
      s'.aead = s.aead.initSt polyDerive (some (H (s.sid ++ s.k2))) s.iv := by
  have e1 := bufWrite_seed_fst s.sid s.k1 hsid hk1
  have e2 : bufWrite (bufWrite (bufWrite (List.replicate 64 0) 0 s.sid) 32 s.k1)
      32 s.k2 = s.sid ++ s.k2 := by
    rw [e1]; exact bufWrite_seed_snd s.sid s.k1 s.k2 hsid hk1 hk2
  refine ⟨{ s with
      k1 := H (s.sid ++ s.k1), k2 := H (s.sid ++ s.k2),
      chacha := s.chacha.initSt (some (H (s.sid ++ s.k1))) s.iv,
      aead := s.aead.initSt polyDerive (some (H (s.sid ++ s.k2))) s.iv },
    ?_, rfl, rfl, rfl, rfl, rfl, rfl, rfl, rfl⟩
  have e3 := bufWrite_seed_snd s.sid s.k1 s.k2 hsid hk1 hk2
  simp only [BIP151Stream.rekey, hinit, Option.isNone_some, Bool.false_eq_true,
    if_false, e1, e2, e3]

def sampleChaCha : ChaCha20 := ⟨List.replicate 32 0, List.replicate 8 0, 0⟩

def sampleAEAD : AEAD := ⟨sampleChaCha, [], []⟩

def sampleStream : BIP151Stream :=
  { cipher := 0, privateKey := List.replicate 32 1, publicKey := none,
    secret := none, prk := some (List.replicate 32 2),
    k1 := List.replicate 32 3, k2 := List.replicate 32 4,
    sid := List.replicate 32 5, tag := none, seq := 0,
    iv := List.replicate 8 0, processed := 0, lastRekey := 0,
    chacha := sampleChaCha, aead := sampleAEAD }

theorem c1_witness :
    ∃ s', BIP151Stream.rekey (fun l => l.take 32) (fun k _ => k)
        sampleStream none none = .ok s' ∧
      s'.k1 = (sampleStream.sid ++ sampleStream.k1).take 32 ∧
      s'.k2 = (sampleStream.sid ++ sampleStream.k2).take 32 ∧
      s'.sid = sampleStream.sid ∧ s'.seq = sampleStream.seq ∧
      s'.iv = sampleStream.iv ∧ s'.prk = sampleStream.prk ∧
      s'.chacha = sampleStream.chacha.initSt
        (some ((sampleStream.sid ++ sampleStream.k1).take 32)) sampleStream.iv ∧
      s'.aead = sampleStream.aead.initSt (fun k _ => k)
        (some ((sampleStream.sid ++ sampleStream.k2).take 32)) sampleStream.iv :=
  c1_rekey_derivation (fun l => l.take 32) (fun k _ => k) sampleStream
    (List.replicate 32 2) rfl rfl rfl rfl

/-- **C2**: with a buffered complete body+tag frame (hasSize set), if the
computed MAC over the authenticated payload differs from the frame's
16-byte trailing tag, parse still advances the input sequence number
(wrapping at 2^32), emits exactly one authentication-failure error, and
emits no (command, body) packet event. -/
theorem c2_tag_mismatch (ks : List Nat → List Nat → Nat → Nat)
    (polyDerive : List Nat → List Nat → List Nat)
    (macFn : List Nat → List Nat → List Nat)
    (st : BIP151) (data : List Nat) (hhs : st.hasSize = true)
    (hmis : macFn st.input.aead.polyKey
        (st.input.aead.macAcc ++ data.take (st.waiting - 16)) ≠
      (data.drop (st.waiting - 16)).take 16) :
    BIP151.parse ks polyDerive macFn st data =
      ({ st with
          hasSize := false, waiting := 4,
          input := ((st.input.auth (data.take (st.waiting - 16))).finish
            macFn).2.sequence polyDerive },
       [BEvent.badTag ((data.drop (st.waiting - 16)).take 16)]) ∧
    (BIP151.parse ks polyDerive macFn st data).1.input.seq =
      (if st.input.seq + 1 = 2 ^ 32 then 0 else st.input.seq + 1) ∧
    ∀ c b, BEvent.packet c b ∉ (BIP151.parse ks polyDerive macFn st data).2 := by
  have hv : (((st.input.auth (data.take (st.waiting - 16))).finish macFn).2.verify
      ((data.drop (st.waiting - 16)).take 16)) = false := by
    simp only [BIP151Stream.verify, BIP151Stream.finish, BIP151Stream.auth,
      AEAD.auth, AEAD.finish, Option.getD_some, beq_eq_false_iff_ne, ne_eq]
    exact hmis
  have hmain : BIP151.parse ks polyDerive macFn st data =
      ({ st with
          hasSize := false, waiting := 4,
          input := ((st.input.auth (data.take (st.waiting - 16))).finish
            macFn).2.sequence polyDerive },
       [BEvent.badTag ((data.drop (st.waiting - 16)).take 16)]) := by
    simp only [BIP151.parse]
    rw [if_neg (by simp [hhs]), if_pos hv]
  refine ⟨hmain, ?_, ?_⟩
  · rw [hmain]
    simp only [BIP151Stream.sequence, BIP151Stream.update, BIP151Stream.finish,
      BIP151Stream.auth]
    norm_num
  · intro c b
    rw [hmain]
    simp

def sampleSession : BIP151 :=
  { input := sampleStream, output := sampleStream, initReceived := true,
    ackReceived := true, initSent := true, ackSent := true,
    handshake := true, pending := [], total := 0, waiting := 20,
    hasSize := true }

theorem c2_witness :
    BIP151.parse (fun _ _ _ => 0) (fun k _ => k) (fun _ _ => List.replicate 16 0)
        sampleSession (List.replicate 20 1) =
      ({ sampleSession with
          hasSize := false, waiting := 4,
          input := ((sampleSession.input.auth
              ((List.replicate 20 1).take (sampleSession.waiting - 16))).finish
            (fun _ _ => List.replicate 16 0)).2.sequence (fun k _ => k) },
       [BEvent.badTag (((List.replicate 20 1).drop
         (sampleSession.waiting - 16)).take 16)]) ∧
    (BIP151.parse (fun _ _ _ => 0) (fun k _ => k) (fun _ _ => List.replicate 16 0)
        sampleSession (List.replicate 20 1)).1.input.seq =
      (if sampleSession.input.seq + 1 = 2 ^ 32 then 0
       else sampleSession.input.seq + 1) ∧
    ∀ c b, BEvent.packet c b ∉ (BIP151.parse (fun _ _ _ => 0) (fun k _ => k)
      (fun _ _ => List.replicate 16 0) sampleSession (List.replicate 20 1)).2 :=
  c2_tag_mismatch (fun _ _ _ => 0) (fun k _ => k) (fun _ _ => List.replicate 16 0)
    sampleSession (List.replicate 20 1) rfl (by decide)

/-!
### C5: chunk-boundary independence of feed()

The pending queue is compared only through its byte content: `Sim` relates
two sessions that agree on every field except the internal chunking of
`pending`, and `WFst` is the invariant (maintained by feed) that `total`
counts exactly the buffered bytes.
-/

def pushChunk (st : BIP151) (d : List Nat) : BIP151 :=
  { st with pending := st.pending ++ [d], total := st.total + d.length }

theorem feed_eq (ks : List Nat → List Nat → Nat → Nat)
    (pd mf : List Nat → List Nat → List Nat) (st : BIP151) (d : List Nat) :
    BIP151.feed ks pd mf st d =
      BIP151.feedLoop ks pd mf (pushChunk st d).total (pushChunk st d) := rfl

/-- Two sessions that differ at most in how the same pending bytes are
split into chunks. -/
structure Sim (a b : BIP151) : Prop where
  input : a.input = b.input
  output : a.output = b.output
  initReceived : a.initReceived = b.initReceived
  ackReceived : a.ackReceived = b.ackReceived
  initSent : a.initSent = b.initSent
  ackSent : a.ackSent = b.ackSent
  handshake : a.handshake = b.handshake
  pending : a.pending.flatten = b.pending.flatten
  total : a.total = b.total
  waiting : a.waiting = b.waiting
  hasSize : a.hasSize = b.hasSize

theorem simRefl (a : BIP151) : Sim a a :=
  ⟨rfl, rfl, rfl, rfl, rfl, rfl, rfl, rfl, rfl, rfl, rfl⟩

theorem simTrans {a b c : BIP151} (h1 : Sim a b) (h2 : Sim b c) : Sim a c :=
  ⟨h1.input.trans h2.input, h1.output.trans h2.output,
   h1.initReceived.trans h2.initReceived, h1.ackReceived.trans h2.ackReceived,
   h1.initSent.trans h2.initSent, h1.ackSent.trans h2.ackSent,
   h1.handshake.trans h2.handshake, h1.pending.trans h2.pending,
   h1.total.trans h2.total, h1.waiting.trans h2.waiting,
   h1.hasSize.trans h2.hasSize⟩

/-- `total` counts exactly the bytes buffered in `pending`. -/
def WFst (st : BIP151) : Prop := st.total = st.pending.flatten.length

theorem pushChunk_wf {st : BIP151} (h : WFst st) (d : List Nat) :
    WFst (pushChunk st d) := by
  have h' : st.total = st.pending.flatten.length := h
  show st.total + d.length = (st.pending ++ [d]).flatten.length
  simp [List.flatten_append, h']

/-- Consuming `n` buffered bytes takes exactly the first `n` bytes of the
flattened queue and leaves the rest, independent of the chunking. -/
theorem readBufs_flatten (ps : List (List Nat)) : ∀ n, n ≤ ps.flatten.length →
    (readBufs ps n).1 = ps.flatten.take n ∧
    (readBufs ps n).2.flatten = ps.flatten.drop n := by
  induction ps with
  | nil => intro n h; simp [readBufs]
  | cons p ps ih =>
    intro n h
    by_cases h0 : n = 0
    · subst h0; simp [readBufs]
    · by_cases hlen : p.length ≤ n
      · have hrec := ih (n - p.length)
          (by simp only [List.flatten_cons, List.length_append] at h; omega)
        simp only [readBufs, if_neg h0, if_pos hlen, List.flatten_cons]
        constructor
        · rw [List.take_append_eq_append_take, List.take_of_length_le hlen,
            hrec.1]
        · rw [List.drop_append_eq_append_drop, List.drop_eq_nil_of_le hlen,
            List.nil_append, hrec.2]
      · simp only [readBufs, if_neg h0, if_neg hlen, List.flatten_cons]
        constructor
        · rw [List.take_append_of_le_length (by omega)]
        · rw [List.drop_append_eq_append_drop,
            Nat.sub_eq_zero_of_le (by omega), List.drop_zero]

theorem read_spec (st : BIP151) (hWF : WFst st) (hle : st.waiting ≤ st.total) :
    st.read st.waiting = (st.pending.flatten.take st.waiting,
      { st with pending := (readBufs st.pending st.waiting).2,
                total := st.total - st.waiting }) ∧
    (readBufs st.pending st.waiting).2.flatten =
      st.pending.flatten.drop st.waiting := by
  have hwf : st.total = st.pending.flatten.length := hWF
  have h := readBufs_flatten st.pending st.waiting (by omega)
  refine ⟨?_, h.2⟩
  show ((readBufs st.pending st.waiting).1,
    { st with pending := (readBufs st.pending st.waiting).2,
              total := st.total - (readBufs st.pending st.waiting).1.length }) = _
  rw [h.1, List.length_take, min_eq_left (by omega)]

/-- parse touches only input, hasSize and waiting; every other session
field is carried through. -/
theorem parse_frame (ks : List Nat → List Nat → Nat → Nat)
    (pd mf : List Nat → List Nat → List Nat) (st : BIP151) (d : List Nat) :
    (BIP151.parse ks pd mf st d).1.pending = st.pending ∧
    (BIP151.parse ks pd mf st d).1.total = st.total ∧
    (BIP151.parse ks pd mf st d).1.output = st.output ∧
    (BIP151.parse ks pd mf st d).1.initReceived = st.initReceived ∧
    (BIP151.parse ks pd mf st d).1.ackReceived = st.ackReceived ∧
    (BIP151.parse ks pd mf st d).1.initSent = st.initSent ∧
    (BIP151.parse ks pd mf st d).1.ackSent = st.ackSent ∧
    (BIP151.parse ks pd mf st d).1.handshake = st.handshake := by
  simp only [BIP151.parse]
  split_ifs <;> exact ⟨rfl, rfl, rfl, rfl, rfl, rfl, rfl, rfl⟩

/-- Every parse branch resets waiting to at least the 4-byte size header
(the size branch sets `size + 16 ≥ 22`). -/
theorem parse_waiting_ge (ks : List Nat → List Nat → Nat → Nat)
    (pd mf : List Nat → List Nat → List Nat) (st : BIP151) (d : List Nat) :
    4 ≤ (BIP151.parse ks pd mf st d).1.waiting := by
  simp only [BIP151.parse]
  split_ifs <;> simp <;> omega

/-- parse's observable behavior depends only on the input stream, the
hasSize flag and the expected frame size. -/
theorem parse_core (ks : List Nat → List Nat → Nat → Nat)
    (pd mf : List Nat → List Nat → List Nat) {a b : BIP151}
    (h1 : a.input = b.input) (h10 : a.waiting = b.waiting)
    (h11 : a.hasSize = b.hasSize) (d : List Nat) :
    (BIP151.parse ks pd mf a d).2 = (BIP151.parse ks pd mf b d).2 ∧
    (BIP151.parse ks pd mf a d).1.input = (BIP151.parse ks pd mf b d).1.input ∧
    (BIP151.parse ks pd mf a d).1.waiting = (BIP151.parse ks pd mf b d).1.waiting ∧
    (BIP151.parse ks pd mf a d).1.hasSize = (BIP151.parse ks pd mf b d).1.hasSize := by
  simp only [BIP151.parse, h1, h10, h11]
  split_ifs <;> exact ⟨rfl, rfl, rfl, rfl⟩

theorem feedLoop_quiet (ks : List Nat → List Nat → Nat → Nat)
    (pd mf : List Nat → List Nat → List Nat) (fuel : Nat) (st : BIP151)
    (h : ¬ st.waiting ≤ st.total) :
    BIP151.feedLoop ks pd mf fuel st = (st, []) := by
  cases fuel <;> simp [BIP151.feedLoop, h]

theorem feedLoop_step (ks : List Nat → List Nat → Nat → Nat)
    (pd mf : List Nat → List Nat → List Nat) (fuel : Nat) (st : BIP151)
    (hg : st.waiting ≤ st.total) :
    BIP151.feedLoop ks pd mf (fuel + 1) st =
      ((BIP151.feedLoop ks pd mf fuel
          (BIP151.parse ks pd mf (st.read st.waiting).2 (st.read st.waiting).1).1).1,
       (BIP151.parse ks pd mf (st.read st.waiting).2 (st.read st.waiting).1).2 ++
         (BIP151.feedLoop ks pd mf fuel
           (BIP151.parse ks pd mf (st.read st.waiting).2 (st.read st.waiting).1).1).2) := by
  simp only [BIP151.feedLoop]
  rw [if_pos hg]

/-- Master loop lemma: on well-formed, Sim-related sessions the drain loop
emits the same events for any sufficient fuel (each iteration consumes
`waiting ≥ 1` bytes, so `total` fuel always suffices — this is exactly the
termination argument for the source's unbounded `while` loop), preserves
Sim and WFst, and stops in a quiescent state with `total < waiting`. -/
theorem feedLoop_master (ks : List Nat → List Nat → Nat → Nat)
    (pd mf : List Nat → List Nat → List Nat) :
    ∀ (t : Nat) (a b : BIP151) (fa fb : Nat),
      a.total ≤ t → Sim a b → WFst a → WFst b → 1 ≤ a.waiting →
      a.total ≤ fa → b.total ≤ fb →
      (BIP151.feedLoop ks pd mf fa a).2 = (BIP151.feedLoop ks pd mf fb b).2 ∧
      Sim (BIP151.feedLoop ks pd mf fa a).1 (BIP151.feedLoop ks pd mf fb b).1 ∧
      WFst (BIP151.feedLoop ks pd mf fa a).1 ∧
      WFst (BIP151.feedLoop ks pd mf fb b).1 ∧
      (BIP151.feedLoop ks pd mf fa a).1.total <
        (BIP151.feedLoop ks pd mf fa a).1.waiting ∧
      1 ≤ (BIP151.feedLoop ks pd mf fa a).1.waiting := by
  intro t
  induction t with
  | zero =>
    intro a b fa fb ht hs hwa hwb hw hfa hfb
    have h9 := hs.total
    have h10 := hs.waiting
    have hqa : ¬ a.waiting ≤ a.total := by omega
    have hqb : ¬ b.waiting ≤ b.total := by omega
    rw [feedLoop_quiet ks pd mf fa a hqa, feedLoop_quiet ks pd mf fb b hqb]
    exact ⟨rfl, hs, hwa, hwb, by show a.total < a.waiting; omega, hw⟩
  | succ t ih =>
    intro a b fa fb ht hs hwa hwb hw hfa hfb
    have h9 := hs.total
    have h10 := hs.waiting
    by_cases hg : a.waiting ≤ a.total
    · have hgb : b.waiting ≤ b.total := by omega
      obtain ⟨fa', rfl⟩ : ∃ n, fa = n + 1 := ⟨fa - 1, by omega⟩
      obtain ⟨fb', rfl⟩ : ∃ n, fb = n + 1 := ⟨fb - 1, by omega⟩
      have hwa' : a.total = a.pending.flatten.length := hwa
      have hwb' : b.total = b.pending.flatten.length := hwb
      have hra := read_spec a hwa hg
      have hrb := read_spec b hwb hgb
      have hchunk : (a.read a.waiting).1 = (b.read b.waiting).1 := by
        rw [hra.1, hrb.1, hs.pending, hs.waiting]
      have hXf : (a.read a.waiting).2.pending.flatten =
          a.pending.flatten.drop a.waiting := by
        rw [hra.1]; exact hra.2
      have hYf : (b.read b.waiting).2.pending.flatten =
          b.pending.flatten.drop b.waiting := by
        rw [hrb.1]; exact hrb.2
      have hXt : (a.read a.waiting).2.total = a.total - a.waiting := by
        rw [hra.1]
      have hYt : (b.read b.waiting).2.total = b.total - b.waiting := by
        rw [hrb.1]
      have hXin : (a.read a.waiting).2.input = (b.read b.waiting).2.input := by
        rw [hra.1, hrb.1]; exact hs.input
      have hXw : (a.read a.waiting).2.waiting = (b.read b.waiting).2.waiting := by
        rw [hra.1, hrb.1]; exact hs.waiting
      have hXh : (a.read a.waiting).2.hasSize = (b.read b.waiting).2.hasSize := by
        rw [hra.1, hrb.1]; exact hs.hasSize
      have hWX : WFst (a.read a.waiting).2 := by
        show (a.read a.waiting).2.total = (a.read a.waiting).2.pending.flatten.length
        rw [hXt, hXf, List.length_drop, hwa']
      have hWY : WFst (b.read b.waiting).2 := by
        show (b.read b.waiting).2.total = (b.read b.waiting).2.pending.flatten.length
        rw [hYt, hYf, List.length_drop, hwb']
      have hsa := feedLoop_step ks pd mf fa' a hg
      have hsb := feedLoop_step ks pd mf fb' b hgb
      rw [hchunk] at hsa
      have hPC := parse_core ks pd mf hXin hXw hXh ((b.read b.waiting).1)
      have hFa := parse_frame ks pd mf (a.read a.waiting).2 ((b.read b.waiting).1)
      have hFb := parse_frame ks pd mf (b.read b.waiting).2 ((b.read b.waiting).1)
      have h4a := parse_waiting_ge ks pd mf (a.read a.waiting).2 ((b.read b.waiting).1)
      set PA := (BIP151.parse ks pd mf (a.read a.waiting).2 ((b.read b.waiting).1)).1 with hPAdef
      set PB := (BIP151.parse ks pd mf (b.read b.waiting).2 ((b.read b.waiting).1)).1 with hPBdef
      have hWPA : WFst PA := by
        show PA.total = PA.pending.flatten.length
        rw [hFa.2.1, hFa.1]
        exact hWX
      have hWPB : WFst PB := by
        show PB.total = PB.pending.flatten.length
        rw [hFb.2.1, hFb.1]
        exact hWY
      have hSim' : Sim PA PB := by
        refine ⟨hPC.2.1, ?_, ?_, ?_, ?_, ?_, ?_, ?_, ?_, hPC.2.2.1, hPC.2.2.2⟩
        · rw [hFa.2.2.1, hFb.2.2.1, hra.1, hrb.1]; exact hs.output
        · rw [hFa.2.2.2.1, hFb.2.2.2.1, hra.1, hrb.1]; exact hs.initReceived
        · rw [hFa.2.2.2.2.1, hFb.2.2.2.2.1, hra.1, hrb.1]; exact hs.ackReceived
        · rw [hFa.2.2.2.2.2.1, hFb.2.2.2.2.2.1, hra.1, hrb.1]; exact hs.initSent
        · rw [hFa.2.2.2.2.2.2.1, hFb.2.2.2.2.2.2.1, hra.1, hrb.1]; exact hs.ackSent
        · rw [hFa.2.2.2.2.2.2.2, hFb.2.2.2.2.2.2.2, hra.1, hrb.1]; exact hs.handshake
        · rw [hFa.1, hFb.1, hXf, hYf, hs.pending, hs.waiting]
        · rw [hFa.2.1, hFb.2.1, hXt, hYt, hs.total, hs.waiting]
      have hTA : PA.total = a.total - a.waiting := by rw [hFa.2.1, hXt]
      have hTB : PB.total = b.total - b.waiting := by rw [hFb.2.1, hYt]
      have hih := ih PA PB fa' fb' (by rw [hTA]; omega) hSim' hWPA hWPB
        (by omega) (by rw [hTA]; omega) (by rw [hTB]; omega)
      rw [hsa, hsb]
      refine ⟨?_, hih.2.1, hih.2.2.1, hih.2.2.2.1, hih.2.2.2.2.1,
        hih.2.2.2.2.2⟩
      show (BIP151.parse ks pd mf (a.read a.waiting).2 ((b.read b.waiting).1)).2 ++
          (BIP151.feedLoop ks pd mf fa' PA).2 =
        (BIP151.parse ks pd mf (b.read b.waiting).2 ((b.read b.waiting).1)).2 ++
          (BIP151.feedLoop ks pd mf fb' PB).2
      rw [hPC.1, hih.1]
    · have hgb : ¬ b.waiting ≤ b.total := by omega
      rw [feedLoop_quiet ks pd mf _ a hg, feedLoop_quiet ks pd mf _ b hgb]
      exact ⟨rfl, hs, hwa, hwb, by show a.total < a.waiting; omega, hw⟩

theorem pushChunk_waiting (st : BIP151) (d : List Nat) :
    (pushChunk st d).waiting = st.waiting := rfl

theorem pushChunk_total (st : BIP151) (d : List Nat) :
    (pushChunk st d).total = st.total + d.length := rfl

theorem pushChunk_pending (st : BIP151) (d : List Nat) :
    (pushChunk st d).pending = st.pending ++ [d] := rfl

/-- Composition: draining the queue, then appending a chunk and draining
again, emits the same events as appending the chunk up front and draining
once — bytes already buffered are consumed identically whether or not the
new chunk is behind them. -/
theorem feedLoop_push (ks : List Nat → List Nat → Nat → Nat)
    (pd mf : List Nat → List Nat → List Nat) :
    ∀ (t : Nat) (st : BIP151) (d : List Nat) (fuel fl1 fl2 : Nat),
      st.total ≤ t → WFst st → 1 ≤ st.waiting → st.total ≤ fuel →
      (BIP151.feedLoop ks pd mf fuel st).1.total + d.length ≤ fl1 →
      st.total + d.length ≤ fl2 →
      (BIP151.feedLoop ks pd mf fuel st).2 ++
          (BIP151.feedLoop ks pd mf fl1
            (pushChunk (BIP151.feedLoop ks pd mf fuel st).1 d)).2 =
        (BIP151.feedLoop ks pd mf fl2 (pushChunk st d)).2 ∧
      Sim (BIP151.feedLoop ks pd mf fl1
            (pushChunk (BIP151.feedLoop ks pd mf fuel st).1 d)).1
          (BIP151.feedLoop ks pd mf fl2 (pushChunk st d)).1 := by
  intro t
  induction t with
  | zero =>
    intro st d fuel fl1 fl2 ht hWF hw hfu hf1 hf2
    have hq : ¬ st.waiting ≤ st.total := by omega
    rw [feedLoop_quiet ks pd mf fuel st hq] at hf1 ⊢
    have hf1' : st.total + d.length ≤ fl1 := hf1
    have hM := feedLoop_master ks pd mf (pushChunk st d).total (pushChunk st d)
      (pushChunk st d) fl1 fl2 le_rfl (simRefl _) (pushChunk_wf hWF d)
      (pushChunk_wf hWF d) hw
      (by rw [pushChunk_total]; exact hf1')
      (by rw [pushChunk_total]; exact hf2)
    constructor
    · show [] ++ (BIP151.feedLoop ks pd mf fl1 (pushChunk st d)).2 =
        (BIP151.feedLoop ks pd mf fl2 (pushChunk st d)).2
      rw [List.nil_append]
      exact hM.1
    · exact hM.2.1
  | succ t ih =>
    intro st d fuel fl1 fl2 ht hWF hw hfu hf1 hf2
    by_cases hg : st.waiting ≤ st.total
    · have hpWF : WFst (pushChunk st d) := pushChunk_wf hWF d
      have hgp : (pushChunk st d).waiting ≤ (pushChunk st d).total := by
        rw [pushChunk_waiting, pushChunk_total]; omega
      obtain ⟨fu, rfl⟩ : ∃ n, fuel = n + 1 := ⟨fuel - 1, by omega⟩
      obtain ⟨f2, rfl⟩ : ∃ n, fl2 = n + 1 := ⟨fl2 - 1, by omega⟩
      have hwf' : st.total = st.pending.flatten.length := hWF
      have hra := read_spec st hWF hg
      have hrp := read_spec (pushChunk st d) hpWF hgp
      have hflat : (pushChunk st d).pending.flatten =
          st.pending.flatten ++ d := by
        rw [pushChunk_pending, List.flatten_append]
        simp
      have hchunk : ((pushChunk st d).read (pushChunk st d).waiting).1 =
          (st.read st.waiting).1 := by
        rw [hra.1, hrp.1, hflat, pushChunk_waiting,
          List.take_append_of_le_length (by omega : st.waiting ≤ st.pending.flatten.length)]
      have hXf : (st.read st.waiting).2.pending.flatten =
          st.pending.flatten.drop st.waiting := by
        rw [hra.1]; exact hra.2
      have hYf : ((pushChunk st d).read (pushChunk st d).waiting).2.pending.flatten =
          st.pending.flatten.drop st.waiting ++ d := by
        have h0 : ((pushChunk st d).read (pushChunk st d).waiting).2.pending.flatten =
            (pushChunk st d).pending.flatten.drop (pushChunk st d).waiting := by
          rw [hrp.1]; exact hrp.2
        rw [h0, hflat, pushChunk_waiting, List.drop_append_eq_append_drop,
          Nat.sub_eq_zero_of_le (by omega), List.drop_zero]
      have hXt : (st.read st.waiting).2.total = st.total - st.waiting := by
        rw [hra.1]
      have hYt : ((pushChunk st d).read (pushChunk st d).waiting).2.total =
          st.total + d.length - st.waiting := by
        have h0 : ((pushChunk st d).read (pushChunk st d).waiting).2.total =
            (pushChunk st d).total - (pushChunk st d).waiting := by
          rw [hrp.1]
        rw [h0, pushChunk_total, pushChunk_waiting]
      have hWX : WFst (st.read st.waiting).2 := by
        show (st.read st.waiting).2.total =
          (st.read st.waiting).2.pending.flatten.length
        rw [hXt, hXf, List.length_drop, hwf']
      have hWY : WFst ((pushChunk st d).read (pushChunk st d).waiting).2 := by
        show ((pushChunk st d).read (pushChunk st d).waiting).2.total =
          ((pushChunk st d).read (pushChunk st d).waiting).2.pending.flatten.length
        rw [hYt, hYf, List.length_append, List.length_drop]
        omega
      have hsa := feedLoop_step ks pd mf fu st hg
      have hsp := feedLoop_step ks pd mf f2 (pushChunk st d) hgp
      rw [hchunk] at hsp
      have hPC := @parse_core ks pd mf (st.read st.waiting).2
        ((pushChunk st d).read (pushChunk st d).waiting).2
        rfl rfl rfl ((st.read st.waiting).1)
      have hFX := parse_frame ks pd mf (st.read st.waiting).2 ((st.read st.waiting).1)
      have hFY := parse_frame ks pd mf
        ((pushChunk st d).read (pushChunk st d).waiting).2 ((st.read st.waiting).1)
      have h4 := parse_waiting_ge ks pd mf (st.read st.waiting).2 ((st.read st.waiting).1)
      set P := (BIP151.parse ks pd mf (st.read st.waiting).2 ((st.read st.waiting).1)).1 with hPdef
      set Q := (BIP151.parse ks pd mf
        ((pushChunk st d).read (pushChunk st d).waiting).2 ((st.read st.waiting).1)).1 with hQdef
      have hTP : P.total = st.total - st.waiting := by rw [hFX.2.1, hXt]
      have hTQ : Q.total = st.total + d.length - st.waiting := by rw [hFY.2.1, hYt]
      have hWP : WFst P := by
        show P.total = P.pending.flatten.length
        rw [hFX.2.1, hFX.1]
        exact hWX
      have hWQ : WFst Q := by
        show Q.total = Q.pending.flatten.length
        rw [hFY.2.1, hFY.1]
        exact hWY
      have hSimP : Sim (pushChunk P d) Q := by
        refine ⟨hPC.2.1, ?_, ?_, ?_, ?_, ?_, ?_, ?_, ?_, hPC.2.2.1, hPC.2.2.2⟩
        · exact hFX.2.2.1.trans hFY.2.2.1.symm
        · exact hFX.2.2.2.1.trans hFY.2.2.2.1.symm
        · exact hFX.2.2.2.2.1.trans hFY.2.2.2.2.1.symm
        · exact hFX.2.2.2.2.2.1.trans hFY.2.2.2.2.2.1.symm
        · exact hFX.2.2.2.2.2.2.1.trans hFY.2.2.2.2.2.2.1.symm
        · exact hFX.2.2.2.2.2.2.2.trans hFY.2.2.2.2.2.2.2.symm
        · show (P.pending ++ [d]).flatten = Q.pending.flatten
          rw [hFX.1, hFY.1, List.flatten_append, hXf, hYf]
          simp
        · show P.total + d.length = Q.total
          rw [hTP, hTQ]
          omega
      have hih := ih P d fu fl1 f2 (by rw [hTP]; omega) hWP
        (by omega) (by rw [hTP]; omega)
        (by rw [hsa] at hf1; exact hf1) (by rw [hTP]; omega)
      have hM := feedLoop_master ks pd mf (pushChunk P d).total (pushChunk P d) Q
        f2 f2 le_rfl hSimP (pushChunk_wf hWP d) hWQ
        (by rw [pushChunk_waiting]; omega)
        (by rw [pushChunk_total, hTP]; omega)
        (by rw [hTQ]; omega)
      rw [hsa, hsp]
      constructor
      · show ((BIP151.parse ks pd mf (st.read st.waiting).2 ((st.read st.waiting).1)).2 ++
            (BIP151.feedLoop ks pd mf fu P).2) ++
            (BIP151.feedLoop ks pd mf fl1
              (pushChunk (BIP151.feedLoop ks pd mf fu P).1 d)).2 =
          (BIP151.parse ks pd mf
              ((pushChunk st d).read (pushChunk st d).waiting).2
              ((st.read st.waiting).1)).2 ++
            (BIP151.feedLoop ks pd mf f2 Q).2
        rw [List.append_assoc, hih.1, hM.1, hPC.1]
      · exact simTrans hih.2 hM.2.1
    · rw [feedLoop_quiet ks pd mf fuel st hg] at hf1 ⊢
      have hf1' : st.total + d.length ≤ fl1 := hf1
      have hM := feedLoop_master ks pd mf (pushChunk st d).total (pushChunk st d)
        (pushChunk st d) fl1 fl2 le_rfl (simRefl _) (pushChunk_wf hWF d)
        (pushChunk_wf hWF d) hw
        (by rw [pushChunk_total]; exact hf1')
        (by rw [pushChunk_total]; exact hf2)
      constructor
      · show [] ++ (BIP151.feedLoop ks pd mf fl1 (pushChunk st d)).2 =
          (BIP151.feedLoop ks pd mf fl2 (pushChunk st d)).2
        rw [List.nil_append]
        exact hM.1
      · exact hM.2.1

theorem feed_wf (ks : List Nat → List Nat → Nat → Nat)
    (pd mf : List Nat → List Nat → List Nat) (st : BIP151) (c : List Nat)
    (hWF : WFst st) (hw : 1 ≤ st.waiting) :
    WFst (BIP151.feed ks pd mf st c).1 ∧
    (BIP151.feed ks pd mf st c).1.total < (BIP151.feed ks pd mf st c).1.waiting ∧
    1 ≤ (BIP151.feed ks pd mf st c).1.waiting := by
  have hpw : WFst (pushChunk st c) := pushChunk_wf hWF c
  have h := feedLoop_master ks pd mf (pushChunk st c).total (pushChunk st c)
    (pushChunk st c) (pushChunk st c).total (pushChunk st c).total le_rfl
    (simRefl _) hpw hpw hw le_rfl le_rfl
  rw [feed_eq]
  exact ⟨h.2.2.1, h.2.2.2.2.1, h.2.2.2.2.2⟩

/-- Splitting one feed into two consecutive feeds of the same bytes emits
the same event sequence and leaves Sim-equal sessions. -/
theorem feed_push (ks : List Nat → List Nat → Nat → Nat)
    (pd mf : List Nat → List Nat → List Nat) (st : BIP151) (a b : List Nat)
    (hWF : WFst st) (hw : 1 ≤ st.waiting) :
    (BIP151.feed ks pd mf st a).2 ++
        (BIP151.feed ks pd mf (BIP151.feed ks pd mf st a).1 b).2 =
      (BIP151.feed ks pd mf st (a ++ b)).2 ∧
    Sim (BIP151.feed ks pd mf (BIP151.feed ks pd mf st a).1 b).1
      (BIP151.feed ks pd mf st (a ++ b)).1 := by
  have hpwa : WFst (pushChunk st a) := pushChunk_wf hWF a
  have hLP := feedLoop_push ks pd mf (pushChunk st a).total (pushChunk st a) b
    (pushChunk st a).total
    (pushChunk (BIP151.feedLoop ks pd mf (pushChunk st a).total
      (pushChunk st a)).1 b).total
    (pushChunk (pushChunk st a) b).total
    le_rfl hpwa hw le_rfl le_rfl le_rfl
  have hsimP : Sim (pushChunk (pushChunk st a) b) (pushChunk st (a ++ b)) := by
    refine ⟨rfl, rfl, rfl, rfl, rfl, rfl, rfl, ?_, ?_, rfl, rfl⟩
    · show ((st.pending ++ [a]) ++ [b]).flatten = (st.pending ++ [a ++ b]).flatten
      simp [List.flatten_append]
    · show st.total + a.length + b.length = st.total + (a ++ b).length
      rw [List.length_append]
      omega
  have hM := feedLoop_master ks pd mf (pushChunk (pushChunk st a) b).total
    (pushChunk (pushChunk st a) b) (pushChunk st (a ++ b))
    (pushChunk (pushChunk st a) b).total (pushChunk st (a ++ b)).total
    le_rfl hsimP (pushChunk_wf hpwa b) (pushChunk_wf hWF (a ++ b)) hw
    le_rfl le_rfl
  constructor
  · simp only [feed_eq]
    rw [hLP.1]
    exact hM.1
  · simp only [feed_eq]
    exact simTrans hLP.2 hM.2.1

theorem feedStep_acc (ks : List Nat → List Nat → Nat → Nat)
    (pd mf : List Nat → List Nat → List Nat) :
    ∀ (cs : List (List Nat)) (s : BIP151) (e : List BEvent),
      List.foldl (feedStep ks pd mf) (s, e) cs =
        ((List.foldl (feedStep ks pd mf) (s, []) cs).1,
         e ++ (List.foldl (feedStep ks pd mf) (s, []) cs).2) := by
  intro cs
  induction cs with
  | nil => intro s e; simp
  | cons c cs ihc =>
    intro s e
    simp only [List.foldl_cons]
    rw [show feedStep ks pd mf (s, e) c =
        ((BIP151.feed ks pd mf s c).1, e ++ (BIP151.feed ks pd mf s c).2) from rfl,
      show feedStep ks pd mf (s, []) c =
        ((BIP151.feed ks pd mf s c).1, [] ++ (BIP151.feed ks pd mf s c).2) from rfl,
      List.nil_append]
    rw [ihc (BIP151.feed ks pd mf s c).1 (e ++ (BIP151.feed ks pd mf s c).2),
      ihc (BIP151.feed ks pd mf s c).1 (BIP151.feed ks pd mf s c).2]
    rw [List.append_assoc]

theorem feedAll_cons (ks : List Nat → List Nat → Nat → Nat)
    (pd mf : List Nat → List Nat → List Nat) (st : BIP151) (c : List Nat)
    (cs : List (List Nat)) :
    feedAll ks pd mf st (c :: cs) =
      ((feedAll ks pd mf (BIP151.feed ks pd mf st c).1 cs).1,
       (BIP151.feed ks pd mf st c).2 ++
         (feedAll ks pd mf (BIP151.feed ks pd mf st c).1 cs).2) := by
  show List.foldl (feedStep ks pd mf) (st, []) (c :: cs) = _
  simp only [List.foldl_cons]
  rw [show feedStep ks pd mf (st, []) c =
      ((BIP151.feed ks pd mf st c).1, [] ++ (BIP151.feed ks pd mf st c).2) from rfl,
    List.nil_append]
  exact feedStep_acc ks pd mf cs (BIP151.feed ks pd mf st c).1
    (BIP151.feed ks pd mf st c).2

/-- Chunked feeding is equivalent to feeding the concatenation, from any
well-formed quiescent session. -/
theorem feedAll_flatten (ks : List Nat → List Nat → Nat → Nat)
    (pd mf : List Nat → List Nat → List Nat) :
    ∀ (chunks : List (List Nat)) (st : BIP151),
      WFst st → 1 ≤ st.waiting → st.total < st.waiting →
      (feedAll ks pd mf st chunks).2 =
        (BIP151.feed ks pd mf st chunks.flatten).2 ∧
      Sim (feedAll ks pd mf st chunks).1
        (BIP151.feed ks pd mf st chunks.flatten).1 := by
  intro chunks
  induction chunks with
  | nil =>
    intro st hWF hw hq
    have hq' : ¬ (pushChunk st []).waiting ≤ (pushChunk st []).total := by
      rw [pushChunk_waiting, pushChunk_total]
      simp only [List.length_nil, Nat.add_zero]
      omega
    simp only [List.flatten_nil]
    have h1 : BIP151.feed ks pd mf st [] = (pushChunk st [], []) := by
      rw [feed_eq]
      exact feedLoop_quiet ks pd mf _ _ hq'
    rw [h1]
    simp only [feedAll, List.foldl_nil]
    refine ⟨by trivial, ?_⟩
    refine ⟨rfl, rfl, rfl, rfl, rfl, rfl, rfl, ?_, ?_, rfl, rfl⟩
    · show st.pending.flatten = (st.pending ++ [[]]).flatten
      simp
    · show st.total = st.total + ([] : List Nat).length
      simp
  | cons c cs ihc =>
    intro st hWF hw hq
    rw [feedAll_cons, List.flatten_cons]
    obtain ⟨hWF1, hq1, hw1⟩ := feed_wf ks pd mf st c hWF hw
    obtain ⟨hE, hS⟩ := ihc (BIP151.feed ks pd mf st c).1 hWF1 hw1 hq1
    obtain ⟨hE2, hS2⟩ := feed_push ks pd mf st c cs.flatten hWF hw
    constructor
    · show (BIP151.feed ks pd mf st c).2 ++
          (feedAll ks pd mf (BIP151.feed ks pd mf st c).1 cs).2 = _
      rw [hE]
      exact hE2
    · exact simTrans hS hS2

/-- **C5**: from a fresh (empty-buffer) session, feeding any list of
chunks one feed() call at a time produces exactly the same event sequence
— in particular the same decrypted (command, body) packet emissions — as
feeding the concatenated bytes in a single call, and leaves the two
sessions in the same state up to internal chunking of the pending queue. -/
theorem c5_chunked_feed (ks : List Nat → List Nat → Nat → Nat)
    (pd mf : List Nat → List Nat → List Nat) (st : BIP151)
    (chunks : List (List Nat)) (hp : st.pending = []) (ht : st.total = 0)
    (hw : 1 ≤ st.waiting) :
    (feedAll ks pd mf st chunks).2 =
      (BIP151.feed ks pd mf st chunks.flatten).2 ∧
    Sim (feedAll ks pd mf st chunks).1
      (BIP151.feed ks pd mf st chunks.flatten).1 :=
  feedAll_flatten ks pd mf chunks st
    (by show st.total = st.pending.flatten.length; rw [hp, ht]; rfl)
    hw (by omega)

theorem c5_witness :
    (feedAll (fun _ _ _ => 0) (fun k _ => k) (fun _ _ => List.replicate 16 0)
        sampleSession [[1, 2], [3, 4, 5]]).2 =
      (BIP151.feed (fun _ _ _ => 0) (fun k _ => k)
        (fun _ _ => List.replicate 16 0) sampleSession
        ([[1, 2], [3, 4, 5]] : List (List Nat)).flatten).2 ∧
    Sim (feedAll (fun _ _ _ => 0) (fun k _ => k) (fun _ _ => List.replicate 16 0)
        sampleSession [[1, 2], [3, 4, 5]]).1
      (BIP151.feed (fun _ _ _ => 0) (fun k _ => k)
        (fun _ _ => List.replicate 16 0) sampleSession
        ([[1, 2], [3, 4, 5]] : List (List Nat)).flatten).1 :=
  c5_chunked_feed (fun _ _ _ => 0) (fun k _ => k) (fun _ _ => List.replicate 16 0)
    sampleSession [[1, 2], [3, 4, 5]] rfl rfl (by decide)
